import Mathlib

/-!
Shallow embedding of the bunker-search repository (a Rust full-text search
service) and proofs about the claims of its specification.

Strings are modeled as Lean `String`/`List Char`; Rust iterates `char`s
(Unicode scalar values), which coincide with Lean `Char`.  Rust `f32` scores
are modeled by exact fractions (`Score` below); every arithmetic fact proved
here lives in the fragment where `f32` arithmetic is exact (integer-valued
boosts, coverages 0 and 1), so the model and the float code agree at every
input appearing in a theorem.  External crates (html2text, the HTML/XML/JSON
parsers of scraper/quick-xml/serde, reqwest's URL join, blake3) enter the
model as oracle parameters or as explicitly noted faithful re-implementations;
everything else is transcribed from the Rust sources file by file.
-/

namespace BunkerSearch

/-! ## Character classes (Rust `char` predicates used by the sources) -/

/-- Rust `char::is_whitespace`: the Unicode `White_Space` property.  Exact
codepoint list from the Unicode table used by Rust. -/
def isRustWhitespace (c : Char) : Bool :=
  let n := c.toNat
  decide ((0x09 ≤ n ∧ n ≤ 0x0d) ∨ n = 0x20 ∨ n = 0x85 ∨ n = 0xa0 ∨ n = 0x1680 ∨
    (0x2000 ≤ n ∧ n ≤ 0x200a) ∨ n = 0x2028 ∨ n = 0x2029 ∨ n = 0x202f ∨
    n = 0x205f ∨ n = 0x3000)

/-- Rust `char::to_ascii_lowercase`: maps `A`-`Z` (codepoints 65-90) to
`a`-`z`, leaves every other character unchanged. -/
def toAsciiLower (c : Char) : Char :=
  if 65 ≤ c.toNat ∧ c.toNat ≤ 90 then Char.ofNat (c.toNat + 32) else c

/-- Rust `char::is_ascii_alphanumeric` (`0`-`9`, `a`-`z`, `A`-`Z`). -/
def isAsciiAlnum (c : Char) : Bool :=
  decide ((48 ≤ c.toNat ∧ c.toNat ≤ 57) ∨ (97 ≤ c.toNat ∧ c.toNat ≤ 122) ∨
    (65 ≤ c.toNat ∧ c.toNat ≤ 90))

/-- Byte length of a character list under UTF-8; models Rust `str::len`. -/
def byteLen (s : List Char) : Nat := (s.map Char.utf8Size).sum

/-! ## Generic string helpers (Rust `str` methods used by the sources) -/

/-- `str::trim_start`: drop leading Unicode whitespace. -/
def dropLeadingWs (s : List Char) : List Char := s.dropWhile isRustWhitespace

/-- `str::trim_end`: drop the maximal run of trailing Unicode whitespace.
Implemented structurally (rather than via `reverse`) to ease induction. -/
def dropTrailingWs : List Char → List Char
  | [] => []
  | c :: rest =>
    let r := dropTrailingWs rest
    if r = [] ∧ isRustWhitespace c then [] else c :: r

/-- Rust `str::trim`. -/
def trimL (s : List Char) : List Char := dropTrailingWs (dropLeadingWs s)

/-- Rust `str::trim` on `String`. -/
def strTrim (s : String) : String := ⟨trimL s.toList⟩

/-- Substring test: Rust `str::contains(&str)` (true for the empty needle). -/
def containsSub : List Char → List Char → Bool
  | hay, pat =>
    if pat.isPrefixOf hay then true
    else
      match hay with
      | [] => false
      | _ :: t => containsSub t pat

/-- Rust `str::ends_with(&str)`. -/
def endsWithSub (hay pat : List Char) : Bool := pat.isSuffixOf hay

/-- Rust `str::eq_ignore_ascii_case`: bytewise equality after ASCII
lowercasing; on `char` lists this is elementwise. -/
def eqIgnoreAsciiCase (a b : String) : Bool :=
  a.toList.map toAsciiLower == b.toList.map toAsciiLower

/-- Rust `str::split_whitespace`: maximal non-whitespace runs, in order. -/
def splitWsAux : List Char → List Char → List (List Char)
  | [], acc => if acc = [] then [] else [acc.reverse]
  | c :: rest, acc =>
    if isRustWhitespace c then
      if acc = [] then splitWsAux rest [] else acc.reverse :: splitWsAux rest []
    else splitWsAux rest (c :: acc)

/-- Rust `str::split_whitespace` (top level). -/
def splitWs (s : List Char) : List (List Char) := splitWsAux s []

/-- Decimal digits of a natural number; models Rust's `Display` for integers
(`u8`/`usize` renders and `format!("{}", n)`). -/
def natDigitsGo : Nat → Nat → List Char → List Char
  | 0, _, acc => acc
  | fuel + 1, n, acc =>
    if n = 0 then acc
    else natDigitsGo fuel (n / 10) (Char.ofNat (48 + n % 10) :: acc)

/-- Decimal rendering of `n`. -/
def natDigits (n : Nat) : List Char :=
  if n = 0 then ['0'] else natDigitsGo (n + 1) n []

/-- Decimal rendering as a `String`. -/
def natStr (n : Nat) : String := ⟨natDigits n⟩

/-! ## ingest.rs: text normalization and truncation (C1 of the spec) -/

/-- Loop body of `normalize_whitespace` (ingest.rs:445-462): collapse each
whitespace run to one `' '`; the `Bool` is the `last_was_space` flag. -/
def normWsCore : Bool → List Char → List Char
  | _, [] => []
  | lastSpace, c :: rest =>
    if isRustWhitespace c then
      if lastSpace then normWsCore true rest else ' ' :: normWsCore true rest
    else c :: normWsCore false rest

/-- `normalize_whitespace` (ingest.rs:445-462): collapse whitespace runs to
single spaces, then `trim`. -/
def normalizeWhitespaceL (s : List Char) : List Char := trimL (normWsCore false s)

/-- `normalize_whitespace` on `String`. -/
def normalize_whitespace (s : String) : String := ⟨normalizeWhitespaceL s.toList⟩

/-- `truncate_chars` (ingest.rs:464-478): longest prefix with at most
`maxChars` codepoints; `maxChars = 0` returns the empty string.  The Rust
loop over `char_indices` returns exactly the `maxChars`-codepoint prefix,
i.e. `List.take`. -/
def truncateCharsL (s : List Char) (maxChars : Nat) : List Char :=
  if maxChars = 0 then [] else s.take maxChars

/-- `truncate_chars` on `String`. -/
def truncate_chars (s : String) (maxChars : Nat) : String := ⟨truncateCharsL s.toList maxChars⟩

/-- `preview_from_text` (ingest.rs:480-487): truncate, and append `"..."` iff
something was cut off.  Rust compares byte lengths `truncated.len() <
input.len()`; since the truncation is a prefix, that comparison agrees with
the codepoint-length comparison used here. -/
def previewFromTextL (s : List Char) (maxChars : Nat) : List Char :=
  let t := truncateCharsL s maxChars
  if t.length < s.length then t ++ ['.', '.', '.'] else t

/-- `preview_from_text` on `String`. -/
def preview_from_text (s : String) (maxChars : Nat) : String := ⟨previewFromTextL s.toList maxChars⟩

/-- `infer_title_from_body` (ingest.rs:516-522). -/
def infer_title_from_body (body : String) (id : String) : String :=
  if body = "" then "Post " ++ id else preview_from_text body 80

/-! ## Whitespace-shape predicates used to state the spec's invariants -/

/-- Some two adjacent characters are both `' '`. -/
def hasTwoSpaces : List Char → Bool
  | a :: b :: rest => (a == ' ' && b == ' ') || hasTwoSpaces (b :: rest)
  | _ => false

/-- The first character is a space. -/
def headSpace : List Char → Bool
  | [] => false
  | c :: _ => c == ' '

/-- The last character is a space. -/
def lastSpace : List Char → Bool
  | [] => false
  | [c] => c == ' '
  | _ :: c :: rest => lastSpace (c :: rest)

/-! ## Ingested document records (ingest.rs:27-37) -/

/-- `RawDocument` (ingest.rs:27-37). -/
structure RawDocM where
  doc_id : String
  source : String
  title : String
  body : String
  preview : String
  location : String
  url : Option String
  fingerprint : String
  deriving DecidableEq, Repr

/-- One JSONL line of `ingest_jsonl` (ingest.rs:230-291) after the external
JSON parse: the four `value_to_string` field extractions are inputs, the
blake3 line hash is the opaque input `lineHash`.  Returns `none` when the
line is skipped (empty body). -/
def mkJsonlDoc (maxIndexedChars : Nat) (sourceName pathStr : String) (lineNo : Nat)
    (idVal titleVal bodyVal urlVal : Option String) (lineHash : String) : Option RawDocM :=
  let id := idVal.getD (natStr lineNo)
  let title0 := titleVal.getD ("Document " ++ id)
  let body0 := bodyVal.getD ""
  let url := urlVal.bind fun v => if strTrim v = "" then none else some v
  let body := truncate_chars (normalize_whitespace body0) maxIndexedChars
  if body = "" then none
  else
    let title1 := normalize_whitespace title0
    let title := if title1 = "" then "Document " ++ id else title1
    some
      { doc_id := "jsonl:" ++ sourceName ++ ":" ++ id
        source := sourceName
        title
        preview := preview_from_text body 280
        body
        location := pathStr ++ ":" ++ natStr lineNo
        url
        fingerprint := lineHash }

/-- One file of `ingest_filesystem` (ingest.rs:96-204) past the external
walk, read, binary sniff and HTML handling: `title0` is the candidate title
(the extracted HTML title or `path_to_title`), `bodySource` the raw text or
the `html2text` output, `fingerprint` the mtime:len fingerprint — all
inputs.  Returns `none` when the file is skipped (empty body). -/
def mkFsDoc (maxIndexedChars : Nat) (sourceName relStr : String)
    (title0 bodySource fingerprint : String) : Option RawDocM :=
  let title1 := normalize_whitespace title0
  let title := if title1 = "" then relStr else title1
  let body := truncate_chars (normalize_whitespace bodySource) maxIndexedChars
  if body = "" then none
  else some
    { doc_id := "fs:" ++ sourceName ++ ":" ++ relStr
      source := sourceName
      title
      preview := preview_from_text body 280
      body
      location := relStr
      url := none
      fingerprint }

/-- Attribute extraction loop of `process_stackexchange_row`
(ingest.rs:360-381): fold over the already-unescaped `(key, value)` pairs,
later occurrences overwriting earlier ones. -/
def seRowAttrs (attrs : List (String × String)) :
    Option String × Option String × Option String × Option String :=
  attrs.foldl
    (fun (acc : Option String × Option String × Option String × Option String) kv =>
      let (id, title, body, lastAct) := acc
      if kv.1 = "Id" then (some kv.2, title, body, lastAct)
      else if kv.1 = "Title" then (id, some kv.2, body, lastAct)
      else if kv.1 = "Body" then (id, title, some kv.2, lastAct)
      else if kv.1 = "LastActivityDate" then (id, title, body, some kv.2)
      else acc)
    (none, none, none, none)

/-- The normalized, truncated body a StackExchange row yields before the
empty-body title adoption (ingest.rs:391-397); `h` is the external
`html2text::from_read` conversion. -/
def seBodyOf (h : String → String) (maxIndexedChars : Nat) (attrs : List (String × String)) :
    String :=
  let (_, _, body?, _) := seRowAttrs attrs
  let bodyRaw := body?.getD ""
  let bodyPlain := if bodyRaw = "" then "" else h bodyRaw
  truncate_chars (normalize_whitespace bodyPlain) maxIndexedChars

/-- `process_stackexchange_row` (ingest.rs:342-427).  `h` is the external
`html2text::from_read` conversion, `attrs` the row's attribute pairs.
Returns `none` when the row is skipped. -/
def process_stackexchange_row (h : String → String) (maxIndexedChars : Nat)
    (sourceName pathStr : String) (attrs : List (String × String)) : Option RawDocM :=
  let (id?, title?, body?, lastAct?) := seRowAttrs attrs
  match id? with
  | none => none
  | some id =>
    let bodyRaw := body?.getD ""
    let bodyPlain := if bodyRaw = "" then "" else h bodyRaw
    let body := truncate_chars (normalize_whitespace bodyPlain) maxIndexedChars
    if body = "" ∧ strTrim (title?.getD "") = "" then none
    else
      let title1 := normalize_whitespace (title?.getD (infer_title_from_body body id))
      let title := if title1 = "" then "Post " ++ id else title1
      let body := if body = "" then title else body
      some
        { doc_id := "stackexchange:" ++ sourceName ++ ":" ++ id
          source := sourceName
          title
          preview := preview_from_text body 280
          body
          location := pathStr ++ "#" ++ id
          url := none
          fingerprint := lastAct?.getD "" ++ ":" ++ natStr (byteLen bodyRaw.toList) }

/-! ## Scores: exact-fraction model of the `f32` values computed by the code

Every score appearing in a verified statement is produced by `f32` operations
that are exact there (integers of small magnitude, coverages 0 and 1), so the
fraction model coincides with the float code at those inputs.  Denominators
are kept positive so that cross-multiplication defines the order. -/

structure Score where
  num : Int
  den : Nat
  den_pos : 0 < den

/-- An integer score (e.g. the literal boosts of `rerank_score`). -/
def Score.ofInt (n : Int) : Score := ⟨n, 1, Nat.one_pos⟩

/-- A decimal fraction such as the source literals `0.7`, `0.6`, `0.75`,
`0.9` (exactness caveat: see the `Score` header comment). -/
def Score.frac (n : Int) (d : Nat) (h : 0 < d := by decide) : Score := ⟨n, d, h⟩

/-- Addition (`+` on `f32` in the source). -/
def Score.add (a b : Score) : Score :=
  ⟨a.num * (b.den : Int) + b.num * (a.den : Int), a.den * b.den, Nat.mul_pos a.den_pos b.den_pos⟩

/-- Multiplication (`*` on `f32` in the source). -/
def Score.mul (a b : Score) : Score :=
  ⟨a.num * b.num, a.den * b.den, Nat.mul_pos a.den_pos b.den_pos⟩

/-- Division by a count (`/ len as f32` in `token_coverage`); the zero case
is unreachable because the caller guards on a nonempty token list. -/
def Score.divNat (a : Score) (n : Nat) : Score :=
  if h : 0 < n then ⟨a.num, a.den * n, Nat.mul_pos a.den_pos h⟩ else Score.ofInt 0

/-- The order on scores (what `f32` `<=`/`total_cmp` decide on the values
arising here). -/
def Score.le (a b : Score) : Prop := a.num * (b.den : Int) ≤ b.num * (a.den : Int)

instance (a b : Score) : Decidable (a.le b) := by unfold Score.le; infer_instance

/-- Strict order as a boolean (used in closed statements). -/
def Score.blt (a b : Score) : Bool := decide (a.num * (b.den : Int) < b.num * (a.den : Int))

/-- `f32::total_cmp` restricted to the (NaN-free) values arising here. -/
def Score.cmp (a b : Score) : Ordering :=
  if a.num * (b.den : Int) < b.num * (a.den : Int) then .lt
  else if b.num * (a.den : Int) < a.num * (b.den : Int) then .gt
  else .eq

/-- `hit.score.max(0.0)` (server.rs:320): nonnegative part. -/
def Score.maxZero (a : Score) : Score := if a.num < 0 then Score.ofInt 0 else a

instance : DecidableEq Score := fun a b =>
  decidable_of_iff (a.num = b.num ∧ a.den = b.den)
    (by cases a; cases b; simp)

instance {ε α : Type} [DecidableEq ε] [DecidableEq α] : DecidableEq (Except ε α) := fun a b =>
  match a, b with
  | .ok x, .ok y => decidable_of_iff (x = y) (by simp)
  | .error x, .error y => decidable_of_iff (x = y) (by simp)
  | .ok _, .error _ => isFalse (by simp)
  | .error _, .ok _ => isFalse (by simp)

instance : IsTrans Score Score.le where
  trans a b c h1 h2 := by
    unfold Score.le at *
    have hb : (0 : Int) < (b.den : Int) := Int.ofNat_pos.mpr b.den_pos
    nlinarith [Int.ofNat_pos.mpr a.den_pos, Int.ofNat_pos.mpr c.den_pos]

instance : IsTotal Score Score.le where
  total a b := by unfold Score.le; omega

/-! ## server.rs: hit records, normalization and the re-ranker -/

/-- `SearchHit` (search.rs:37-46), with the score in the fraction model. -/
structure SearchHitM where
  score : Score
  doc_id : String
  source : String
  title : String
  preview : String
  location : String
  url : Option String
  deriving DecidableEq

/-- Loop body of `normalize_for_matching` (server.rs:431-447): ASCII-lowercase
each char; keep ASCII alphanumerics, collapse every other character run into
one `' '`.  The `Bool` is the `last_space` flag. -/
def nfmCore : Bool → List Char → List Char
  | _, [] => []
  | lastSpace, c :: rest =>
    let lower := toAsciiLower c
    if isAsciiAlnum lower then lower :: nfmCore false rest
    else if lastSpace then nfmCore true rest
    else ' ' :: nfmCore true rest

/-- `normalize_for_matching` (server.rs:431-447). -/
def normalizeForMatchingL (s : List Char) : List Char := trimL (nfmCore false s)

/-- `normalize_for_matching` on `String`. -/
def normalize_for_matching (s : String) : String := ⟨normalizeForMatchingL s.toList⟩

/-- `tokenize` (server.rs:423-429): split on whitespace (the emptiness filter
is redundant, as in the source). -/
def tokenizeL (s : List Char) : List (List Char) := (splitWs s).filter (fun t => t ≠ [])

/-- `token_coverage` (server.rs:389-421).  `exact` counts query tokens equal
to some target token; a non-exact token of byte length ≥ 3 that is a prefix
of some target token, or has some target token as a prefix, counts with
weight `0.7`. -/
def token_coverage (queryTokens : List (List Char)) (targetText : List Char) : Score :=
  if queryTokens = [] ∨ targetText = [] then Score.ofInt 0
  else
    let targetTokens := splitWs targetText
    if targetTokens = [] then Score.ofInt 0
    else
      let exactHits := queryTokens.countP (fun t => targetTokens.contains t)
      let prefixHits := queryTokens.countP
        (fun t =>
          !targetTokens.contains t &&
          decide (3 ≤ byteLen t) &&
          targetTokens.any (fun tt => t.isPrefixOf tt || tt.isPrefixOf t))
      Score.divNat
        (Score.add (Score.ofInt exactHits) (Score.mul (Score.ofInt prefixHits) (Score.frac 7 10)))
        queryTokens.length

/-- Lowercasing of a hit field, modeling `String::to_lowercase`
(server.rs:325-327).  ASCII-only lowering; it agrees with Rust's Unicode
lowercasing on all inputs occurring in the verified statements (which are
ASCII). -/
def lowerL (s : List Char) : List Char := s.map toAsciiLower

/-- `rerank_score` (server.rs:319-387). -/
def rerank_score (hit : SearchHitM) (normalizedQuery : List Char)
    (queryTokens : List (List Char)) : Score :=
  let baseScore := Score.maxZero hit.score
  let normalizedTitle := normalizeForMatchingL hit.title.toList
  let normalizedPreview := normalizeForMatchingL hit.preview.toList
  let normalizedLocation := normalizeForMatchingL hit.location.toList
  let locationLc := lowerL hit.location.toList
  let titleLc := lowerL hit.title.toList
  let sourceLc := lowerL hit.source.toList
  let titleCoverage := token_coverage queryTokens normalizedTitle
  let previewCoverage := token_coverage queryTokens normalizedPreview
  let boost := Score.ofInt 0
  let boost := if normalizedTitle = normalizedQuery then boost.add (Score.ofInt 320) else boost
  let boost :=
    if containsSub normalizedTitle normalizedQuery ∧ 5 ≤ byteLen normalizedQuery then
      boost.add (Score.ofInt 210)
    else boost
  let boost := boost.add (titleCoverage.mul (Score.ofInt 340))
  let boost := boost.add (previewCoverage.mul (Score.ofInt 90))
  let isGutenberg := containsSub sourceLc "gutenberg".toList
  let boost :=
    if isGutenberg then
      let boost := boost.add (titleCoverage.mul (Score.ofInt 240))
      let boost := if (Score.frac 6 10).le titleCoverage then boost.add (Score.ofInt 80) else boost
      let boost := if (Score.frac 75 100).le titleCoverage then boost.add (Score.ofInt 220) else boost
      let boost := if (Score.frac 9 10).le titleCoverage then boost.add (Score.ofInt 160) else boost
      let boost :=
        if ¬ containsSub normalizedQuery "chapter".toList ∧
            (containsSub titleLc ", chapters".toList ∨ containsSub locationLc "chapters%20".toList)
        then boost.add (Score.ofInt (-130)) else boost
      let boost :=
        if ¬ containsSub normalizedQuery "cover".toList ∧
            (titleLc.contains '(' ∨ containsSub titleLc "edition".toList)
        then boost.add (Score.ofInt (-35)) else boost
      let boost :=
        if endsWithSub locationLc ".html".toList ∧
            ¬ containsSub locationLc "chapters%20".toList ∧
            ¬ containsSub locationLc "_cover".toList
        then boost.add (Score.ofInt 90) else boost
      boost
    else boost
  let isCover := containsSub normalizedTitle " cover".toList ∨
    containsSub normalizedLocation " cover".toList ∨ containsSub locationLc "_cover".toList
  let boost :=
    if isCover ∧ ¬ containsSub normalizedQuery "cover".toList then
      boost.add (Score.ofInt (-90))
    else boost
  baseScore.add boost

/-- Comparison of two naturals as an `Ordering` (Rust `usize::cmp`). -/
def cmpNat (a b : Nat) : Ordering := if a < b then .lt else if b < a then .gt else .eq

/-- Lexicographic comparison of char lists by codepoint; equals Rust
`String::cmp` (UTF-8 byte order and codepoint order agree). -/
def cmpCharList : List Char → List Char → Ordering
  | [], [] => .eq
  | [], _ :: _ => .lt
  | _ :: _, [] => .gt
  | a :: as, b :: bs => (cmpNat a.toNat b.toNat).then (cmpCharList as bs)

/-- The comparator closure of `rerank_hits`'s sort (server.rs:310-316):
descending score, then shorter title (byte length), then lexicographic
title. -/
def rerankCmp (l r : SearchHitM) : Ordering :=
  ((Score.cmp r.score l.score).then (cmpNat (byteLen l.title.toList) (byteLen r.title.toList))).then
    (cmpCharList l.title.toList r.title.toList)

/-- The `≤` relation induced by `rerankCmp`; Rust's stable `sort_by` on a
total preorder is realized by a stable insertion sort. -/
def rerankLe (l r : SearchHitM) : Prop := rerankCmp l r ≠ .gt

instance (l r : SearchHitM) : Decidable (rerankLe l r) := by unfold rerankLe; infer_instance

/-- `rerank_hits` (server.rs:295-317). -/
def rerank_hits (query : String) (hits : List SearchHitM) : List SearchHitM :=
  let normalizedQuery := normalizeForMatchingL query.toList
  if normalizedQuery.isEmpty || hits.isEmpty then hits
  else
    let queryTokens := tokenizeL normalizedQuery
    if queryTokens.isEmpty then hits
    else
      let scored := hits.map (fun h => { h with score := rerank_score h normalizedQuery queryTokens })
      List.insertionSort rerankLe scored

/-! ## search.rs: the local engine

Tantivy itself is external; its observable behaviour in `SearchEngine::search`
(search.rs:78-150) is modeled over the committed index contents `docs` (in
doc-address order) with three oracles: `parseOk` (whether the query parser
accepts the text), `queryMatches` (whether the parsed title/body query matches a
document) and `score` (its BM25 score).  The `source` field is indexed as a
raw `STRING` term, so the added `TermQuery` filter is exact string equality. -/

/-- A document as stored in the index (the `STORED` fields of the schema,
search.rs:168-180); `url = none` when no url field was added. -/
structure StoredDoc where
  doc_id : String
  source : String
  title : String
  body : String
  preview : String
  location : String
  url : Option String
  deriving DecidableEq, Repr

/-- The engine with its query oracles. -/
structure LocalEngine where
  docs : List StoredDoc
  parseOk : String → Bool
  queryMatches : String → StoredDoc → Bool
  score : String → StoredDoc → Score

/-- `SearchResult` (search.rs:48-52). -/
structure SearchResultM where
  total_hits : Nat
  hits : List SearchHitM
  deriving DecidableEq

/-- Hit materialization from stored fields (search.rs:126-147): an absent or
empty stored `url` yields `none` (`get_field_str` returns `""` for a missing
field). -/
def materializeHit (score : Score) (d : StoredDoc) : SearchHitM :=
  { score
    doc_id := d.doc_id
    source := d.source
    title := d.title
    preview := d.preview
    location := d.location
    url := if d.url.getD "" = "" then none else some (d.url.getD "") }

/-- Descending-score order on stored docs for a fixed query; ties keep
doc-address (list) order via the stable sort, as tantivy's `TopDocs` does. -/
def storedDescLe (e : LocalEngine) (q : String) (a b : StoredDoc) : Prop :=
  Score.le (e.score q b) (e.score q a)

instance (e : LocalEngine) (q : String) (a b : StoredDoc) :
    Decidable (storedDescLe e q a b) := by unfold storedDescLe; infer_instance

/-- `SearchEngine::search` (search.rs:78-150). -/
def searchEngineSearch (e : LocalEngine) (queryText : String) (limit offset : Nat)
    (sourceFilter : Option String) : Except Unit SearchResultM :=
  let queryText := strTrim queryText
  if queryText = "" then .ok ⟨0, []⟩
  else if ¬ e.parseOk queryText then .error ()
  else
    let filt : Option String :=
      match sourceFilter.map strTrim with
      | some f => if f = "" then none else some f
      | none => none
    let matched := e.docs.filter fun d =>
      e.queryMatches queryText d &&
        (match filt with
         | some f => d.source == f
         | none => true)
    let ordered := List.insertionSort (storedDescLe e queryText) matched
    .ok ⟨matched.length,
      ((ordered.drop offset).take limit).map fun d => materializeHit (e.score queryText d) d⟩

/-! ## kiwix.rs: the federated client

HTTP transport and HTML parsing (scraper) are external; a per-collection
request is the oracle `fetch`, returning `none` on any HTTP failure, or the
parsed pieces of the result page: the header total (already matched by the
`of ([0-9,]+)` regex, `none` when the header yields no number) and the
`.results li` rows, each carrying the first link's href and text and the
`<cite>` inner HTML (`""` when absent; a row without any link is modeled as
an empty href, which the loop skips identically while still consuming its
index).  `html2text` and `Url::join` are the oracles `htmlToText` and
`urlJoin`. -/

/-- `KiwixCollection` (kiwix.rs:21-26). -/
structure KiwixCollection where
  id : String
  title : String
  category : String
  deriving DecidableEq, Repr

/-- One parsed `.results li` row of the search result page. -/
structure KiwixRow where
  href : String
  linkText : String
  citeHtml : String
  deriving DecidableEq, Repr

/-- The client with its oracles. -/
structure KiwixState where
  collections : List KiwixCollection
  maxHitsPerCollection : Nat
  htmlToText : String → String
  urlJoin : String → Option String
  fetch : String → Option (Option Nat × List KiwixRow)

/-- `is_kiwix_filter` (server.rs:291-293). -/
def is_kiwix_filter (value : String) : Bool :=
  eqIgnoreAsciiCase value "kiwix" || "kiwix:".toList.isPrefixOf value.toList

/-- `KiwixClient::filtered_collections` (kiwix.rs:162-183). -/
def filtered_collections (ks : KiwixState) (sourceFilter : Option String) :
    List KiwixCollection :=
  match sourceFilter.map strTrim with
  | none => ks.collections
  | some f =>
    if f = "" then ks.collections
    else if eqIgnoreAsciiCase f "kiwix" then ks.collections
    else if "kiwix:".toList.isPrefixOf f.toList then
      let collectionId : String := ⟨f.toList.drop 6⟩
      ks.collections.filter fun entry => entry.id == collectionId
    else []

/-- The hit-construction loop of `parse_search_html` (kiwix.rs:398-443),
carrying the `enumerate` index.  `normalize_ws` of kiwix.rs:468-485 is the
same algorithm as ingest.rs's `normalize_whitespace` and is reused here. -/
def buildKiwixHits (h2t : String → String) (uJoin : String → Option String)
    (c : KiwixCollection) : Nat → List KiwixRow → List SearchHitM
  | _, [] => []
  | idx, row :: rest =>
    if strTrim row.href = "" then buildKiwixHits h2t uJoin c (idx + 1) rest
    else
      let title := normalize_whitespace row.linkText
      let preview := normalize_whitespace (h2t row.citeHtml)
      let preview := if preview = "" then "From " ++ c.title else preview
      { score := Score.ofInt (500 - (idx : Int))
        doc_id := "kiwix:" ++ c.id ++ ":" ++ row.href
        source := "kiwix:" ++ c.id
        title := if title = "" then "Untitled" else title
        preview
        location := row.href
        url := uJoin row.href } :: buildKiwixHits h2t uJoin c (idx + 1) rest

/-- The hits of one collection's outcome (empty when the request failed). -/
def collHits (ks : KiwixState) (c : KiwixCollection) : List SearchHitM :=
  match ks.fetch c.id with
  | some (_, rows) => buildKiwixHits ks.htmlToText ks.urlJoin c 0 rows
  | none => []

/-- The reported total of one collection's outcome: the header total when the
regex matched, otherwise the number of parsed hits (kiwix.rs:445); zero when
the request failed. -/
def collTotal (ks : KiwixState) (c : KiwixCollection) : Nat :=
  match ks.fetch c.id with
  | some (headerTotal?, rows) =>
    headerTotal?.getD (buildKiwixHits ks.htmlToText ks.urlJoin c 0 rows).length
  | none => 0

/-- The per-collection accumulation step of `KiwixClient::search`
(kiwix.rs:141-155): a failed request leaves the accumulator unchanged, a
successful one adds the collection's total and appends its hits. -/
def kiwixStep (ks : KiwixState) (acc : Nat × List SearchHitM) (c : KiwixCollection) :
    Nat × List SearchHitM :=
  match ks.fetch c.id with
  | some (headerTotal?, rows) =>
    let hits := buildKiwixHits ks.htmlToText ks.urlJoin c 0 rows
    (acc.1 + headerTotal?.getD hits.length, acc.2 ++ hits)
  | none => acc

/-- Descending-score order on hits (the `sort_by` comparator of
kiwix.rs:157). -/
def hitDescLe (a b : SearchHitM) : Prop := Score.le b.score a.score

instance (a b : SearchHitM) : Decidable (hitDescLe a b) := by unfold hitDescLe; infer_instance

instance : IsTrans SearchHitM hitDescLe where
  trans _ _ _ h1 h2 := Trans.trans (r := Score.le) h2 h1

instance : IsTotal SearchHitM hitDescLe where
  total a b := (IsTotal.total (r := Score.le) b.score a.score).imp id id

/-- `KiwixClient::search` (kiwix.rs:116-160).  Per-collection failures are
absorbed by the accumulator; totals are summed; hits are concatenated and
sorted by descending score.  (`page_len` is computed as in the source; the
fetch oracle already fixes each collection's response.) -/
def kiwixSearch (ks : KiwixState) (query : String) (sourceFilter : Option String)
    (limit : Nat) : Nat × List SearchHitM :=
  if strTrim query = "" ∨ limit = 0 then (0, [])
  else
    let selected := filtered_collections ks sourceFilter
    if selected.isEmpty then (0, [])
    else
      let _pageLen := min (max ks.maxHitsPerCollection (max limit 1)) 75
      let folded := selected.foldl (kiwixStep ks) (0, [])
      (folded.1, List.insertionSort hitDescLe folded.2)

/-! ## ollama.rs: the answer synthesizer client -/

/-- The client: limits already adjusted by `from_config` (ollama.rs:42-43:
`max(1)` hits, `max(500)` chars), with the generate endpoint as the network
oracle `generate` (given the prompt, returns the trimmed-to-be response or a
failure). -/
structure OllamaState where
  maxContextHits : Nat
  maxContextChars : Nat
  generate : String → Except Unit String

/-- One context chunk (ollama.rs:88-91). -/
def ollamaChunk (hit : SearchHitM) : String :=
  "- [" ++ hit.source ++ " | " ++ hit.location ++ "]\n  title: " ++ hit.title ++
    "\n  preview: " ++ hit.preview ++ "\n"

/-- `build_context` (ollama.rs:83-102): take up to `maxContextHits` hits and
concatenate chunks while the running byte count stays within
`maxContextChars`. -/
def buildContext (os : OllamaState) (hits : List SearchHitM) : String :=
  let rec go : List SearchHitM → Nat → String → String
    | [], _, out => out
    | hit :: rest, chars, out =>
      let chunk := ollamaChunk hit
      if chars + byteLen chunk.toList > os.maxContextChars then out
      else go rest (chars + byteLen chunk.toList) (out ++ chunk)
  go (hits.take os.maxContextHits) 0 ""

/-- The prompt of `synthesize_answer` (ollama.rs:53-56). -/
def ollamaPrompt (query context : String) : String :=
  "You are answering questions using only the provided offline search snippets. " ++
  "If the snippets are insufficient, say what is missing.\n\nQuestion:\n" ++ query ++
  "\n\nSearch snippets:\n" ++ context ++
  "\n\nInstructions:\n- Give a concise answer in plain English.\n" ++
  "- Include 2-5 inline citations in [source | location] format.\n" ++
  "- Do not invent details not present in snippets."

/-- `synthesize_answer` (ollama.rs:47-81): empty context → empty answer with
no network call; otherwise the generate oracle's reply, trimmed. -/
def synthesizeAnswer (os : OllamaState) (query : String) (hits : List SearchHitM) :
    Except Unit String :=
  let context := buildContext os hits
  if context = "" then .ok ""
  else (os.generate (ollamaPrompt query context)).map strTrim

/-! ## server.rs: the search handler -/

/-- `SearchParams` (server.rs:27-34). -/
structure SearchParams where
  q : Option String
  limit : Option Nat
  offset : Option Nat
  source : Option String
  answer : Option Bool

/-- `SearchResponse` (server.rs:47-52). -/
structure SearchResponseM where
  total_hits : Nat
  hits : List SearchHitM
  answer : Option String
  deriving DecidableEq

/-- The parts of `AppState` (server.rs:17-25) the handler reads.  `maxLimit`
is at least 1 after config loading (zeros are replaced by the default 100),
which the `clamp(1, max_limit)` below relies on. -/
structure ServerState where
  engine : LocalEngine
  kiwix : Option KiwixState
  ollama : Option OllamaState
  defaultLimit : Nat
  maxLimit : Nat

/-- The effective limit (server.rs:172-175): `clamp(1, max_limit)`; the
config loader guarantees `max_limit ≥ 1`, on which Rust's `clamp` relies. -/
def limitOf (st : ServerState) (p : SearchParams) : Nat :=
  min (max (p.limit.getD st.defaultLimit) 1) st.maxLimit

/-- The effective offset (server.rs:176). -/
def offsetOf (p : SearchParams) : Nat := p.offset.getD 0

/-- The trimmed, non-empty source filter (server.rs:178-182). -/
def sourceFilterOf (p : SearchParams) : Option String :=
  match p.source.map strTrim with
  | some v => if v = "" then none else some v
  | none => none

/-- The oversubscribed fetch count (server.rs:185-188), with saturating
`usize` arithmetic modeled on `Nat`. -/
def fetchCountOf (st : ServerState) (p : SearchParams) : Nat :=
  min ((offsetOf p + limitOf st p) * 3) (max (st.maxLimit * 20) (limitOf st p))

/-- The filter passed to the local engine (server.rs:193-196): a kiwix
filter never reaches it. -/
def localFilterOf (p : SearchParams) : Option String :=
  match sourceFilterOf p with
  | some f => if is_kiwix_filter f then none else some f
  | none => none

/-- The local half of the search (server.rs:198-206): consulted unless the
filter selects kiwix only. -/
def localPartOf (st : ServerState) (p : SearchParams) : Except Unit (Nat × List SearchHitM) :=
  if (sourceFilterOf p).isNone || (localFilterOf p).isSome then
    (searchEngineSearch st.engine (p.q.getD "") (max (fetchCountOf st p) 1) 0
        (localFilterOf p)).map
      fun r => (r.total_hits, r.hits)
  else .ok (0, [])

/-- The kiwix half of the search (server.rs:208-218): consulted when no
filter is given or the filter is a kiwix filter. -/
def kiwixPartOf (st : ServerState) (p : SearchParams) : Nat × List SearchHitM :=
  match st.kiwix with
  | some ks =>
    if (sourceFilterOf p).isNone ||
        (match sourceFilterOf p with
         | some f => is_kiwix_filter f
         | none => false) then
      kiwixSearch ks (p.q.getD "") (sourceFilterOf p) (max (fetchCountOf st p) 1)
    else (0, [])
  | none => (0, [])

/-- The paginated, re-ranked hits (server.rs:220-222). -/
def pagedHitsOf (st : ServerState) (p : SearchParams) (localHits : List SearchHitM) :
    List SearchHitM :=
  ((rerank_hits (p.q.getD "") (localHits ++ (kiwixPartOf st p).2)).drop (offsetOf p)).take
    (limitOf st p)

/-- The optional synthesized answer (server.rs:224-240). -/
def answerPartOf (st : ServerState) (p : SearchParams) (pagedHits : List SearchHitM) :
    Except Unit (Option String) :=
  if p.answer.getD false then
    match st.ollama with
    | some os =>
      (synthesizeAnswer os (p.q.getD "") pagedHits).map fun generated =>
        if generated = "" then none else some generated
    | none => .ok none
  else .ok none

/-- `search_handler` (server.rs:168-247), assembled from the pieces above
exactly as the source does. -/
def search_handler (st : ServerState) (p : SearchParams) : Except Unit SearchResponseM :=
  match localPartOf st p with
  | .error e => .error e
  | .ok (localTotal, localHits) =>
    match answerPartOf st p (pagedHitsOf st p localHits) with
    | .error e => .error e
    | .ok answer =>
      .ok ⟨localTotal + (kiwixPartOf st p).1, pagedHitsOf st p localHits, answer⟩

/-! ## indexer.rs: the manifest map and the incremental indexer

The `Manifest.docs` field is a Rust `BTreeMap<String, String>`: a map sorted
by byte-lexicographic key order.  It is modeled by an association list into
which `mInsert` inserts in sorted order, replacing an existing key — starting
from `[]` this reproduces the `BTreeMap` contents and iteration order
exactly, so list equality is `BTreeMap` equality.  Keys are ordered by
`cmpCharList` (codepoint order = UTF-8 byte order). -/

/-- Key order of the `BTreeMap` (`String`'s `Ord` in Rust). -/
def keyLt (a b : String) : Bool := cmpCharList a.toList b.toList == .lt

/-- The manifest's `docs` map: `doc_id → fingerprint` in sorted order. -/
abbrev ManifestMap := List (String × String)

/-- `BTreeMap::insert`. -/
def mInsert (k v : String) : ManifestMap → ManifestMap
  | [] => [(k, v)]
  | (k', v') :: rest =>
    if keyLt k k' then (k, v) :: (k', v') :: rest
    else if k = k' then (k, v) :: rest
    else (k', v') :: mInsert k v rest

/-- `BTreeMap::get`. -/
def mLookup (k : String) : ManifestMap → Option String
  | [] => none
  | (k', v') :: rest => if k = k' then some v' else mLookup k rest

/-- `BTreeMap::keys` (iteration order). -/
def mKeys (m : ManifestMap) : List String := m.map Prod.fst

/-- `Manifest` (indexer.rs:23-27): a `version` byte and the docs map. -/
structure ManifestM where
  version : Nat
  docs : ManifestMap
  deriving DecidableEq, Repr

/-- `IndexStats` (indexer.rs:15-21). -/
structure IndexStatsM where
  scanned : Nat
  indexed : Nat
  skipped : Nat
  removed : Nat
  deriving DecidableEq, Repr

/-- A tantivy writer operation issued by `index_sources`.  The `url` field of
an added document is dropped here: index contents are tracked per `doc_id`
(which is what the manifest invariant speaks about). -/
inductive WriterOp where
  | delAll
  | delTerm (id : String)
  | addDoc (d : RawDocM)
  deriving DecidableEq, Repr

/-- Effect of one writer operation on the (batch-ordered) index contents:
`delete_term` removes every live or pending document whose `doc_id` field
equals the term, `add_document` appends, `delete_all_documents` clears. -/
def applyOp (idx : List RawDocM) : WriterOp → List RawDocM
  | .delAll => []
  | .delTerm id => idx.filter fun d => d.doc_id ≠ id
  | .addDoc d => idx ++ [d]

/-- Effect of a batch of writer operations, in order. -/
def applyOps (idx : List RawDocM) (ops : List WriterOp) : List RawDocM :=
  ops.foldl applyOp idx

/-- The per-document closure state of `index_sources` (indexer.rs:55-95):
the new manifest map, the seen set, the two counters, and the writer
operations issued so far. -/
structure FoldSt where
  newDocs : ManifestMap
  seen : List String
  indexed : Nat
  unchanged : Nat
  ops : List WriterOp

/-- The index-this-document path (indexer.rs:71-94): delete-by-term, add,
record fingerprint, count. -/
def indexStep (st : FoldSt) (d : RawDocM) : FoldSt :=
  { st with
    seen := d.doc_id :: st.seen
    ops := st.ops ++ [.delTerm d.doc_id, .addDoc d]
    newDocs := mInsert d.doc_id d.fingerprint st.newDocs
    indexed := st.indexed + 1 }

/-- The closure body of `index_sources` (indexer.rs:61-95): skip the document
when (not rebuilding and) the old manifest holds the same fingerprint,
otherwise index it. -/
def stepDoc (oldManifest : ManifestMap) (rebuild : Bool) (st : FoldSt) (d : RawDocM) : FoldSt :=
  match mLookup d.doc_id oldManifest with
  | some oldFp =>
    if ¬ rebuild ∧ oldFp = d.fingerprint then
      { st with
        unchanged := st.unchanged + 1
        seen := d.doc_id :: st.seen
        newDocs := mInsert d.doc_id oldFp st.newDocs }
    else indexStep st d
  | none => indexStep st d

/-- Result of one `index_sources` run: the stats, the manifest written to
disk, the writer operations issued, and whether `commit` was called. -/
structure RunResult where
  stats : IndexStatsM
  manifest : ManifestM
  ops : List WriterOp
  committed : Bool

/-- `index_sources` (indexer.rs:29-123) over the stream `docs` of raw
documents the sources emit (in emission order) and the manifest loaded from
disk.  `ingestScanned`/`ingestSkipped` are the source-level stats of
`ingest_sources`.  Steps: load the old manifest (empty under `rebuild`),
clear the index under `rebuild`, run the per-document closure, delete the
vanished ids (in `BTreeMap` key order), commit iff `rebuild` or anything was
indexed or removed, and always write the new manifest with version 1. -/
def index_sources (oldManifest : ManifestMap) (rebuild : Bool) (docs : List RawDocM)
    (ingestScanned ingestSkipped : Nat) : RunResult :=
  let oldM := if rebuild then [] else oldManifest
  let init : FoldSt :=
    { newDocs := [], seen := [], indexed := 0, unchanged := 0
      ops := if rebuild then [.delAll] else [] }
  let st := docs.foldl (stepDoc oldM rebuild) init
  let removedIds :=
    if rebuild then [] else (mKeys oldM).filter fun id => ¬ st.seen.contains id
  let ops := st.ops ++ removedIds.map WriterOp.delTerm
  let removedCount := removedIds.length
  let committed := rebuild ∨ 0 < st.indexed ∨ 0 < removedCount
  { stats :=
      { scanned := ingestScanned
        indexed := st.indexed
        skipped := ingestSkipped + st.unchanged
        removed := removedCount }
    manifest := ⟨1, st.newDocs⟩
    ops
    committed }

/-- The index contents visible to readers after the run: the batch is applied
only when `commit` was called; otherwise the uncommitted operations are
discarded with the writer. -/
def visibleIndex (idx0 : List RawDocM) (r : RunResult) : List RawDocM :=
  if r.committed then applyOps idx0 r.ops else idx0

/-- The map an ingest pass induces: every emitted document's fingerprint
keyed by its `doc_id` (later emissions overwrite earlier ones, as in the
`BTreeMap`). -/
def manifestOf (docs : List RawDocM) : ManifestMap :=
  docs.foldl (fun m d => mInsert d.doc_id d.fingerprint m) []

/-- Number of indexed documents carrying a given `doc_id`. -/
def countId (idx : List RawDocM) (id : String) : Nat :=
  idx.countP fun d => d.doc_id == id

/-! ## Manifest (de)serialization: `save_manifest` / `load_manifest`

`save_manifest` (indexer.rs:141-151) writes `serde_json::to_vec(manifest)`:
the byte-deterministic rendering `{"version":V,"docs":{"k":"v",...}}` with
the `BTreeMap` entries in key order and serde_json's string escaping (`"`,
`\`, and control characters).  `serializeManifest` below reproduces those
bytes (as chars; the manifest contents are the escaped ASCII/Unicode chars
and UTF-8 is injective).

`load_manifest` (indexer.rs:129-139) returns the empty manifest when the
file does not exist, and otherwise `serde_json::from_str`.  serde_json
accepts a string only if it is a single complete JSON value: in particular
every brace outside a string literal must be matched and every string
literal closed, with the top-level value closed only at the end.  The parse
is therefore modeled as that completeness scan (`jsonComplete`) followed by
structural extraction; the scan is the part the partial-file claim rests on,
and it is a necessary condition for any JSON parser to accept. -/

/-- Hex digit (lowercase), as serde_json renders `\u00XX` escapes. -/
def hexDigit (n : Nat) : Char :=
  if n < 10 then Char.ofNat (48 + n) else Char.ofNat (87 + n)

/-- serde_json's escaping of one character inside a string literal. -/
def escChar (c : Char) : List Char :=
  if c = '"' then ['\\', '"']
  else if c = '\\' then ['\\', '\\']
  else if c = Char.ofNat 0x08 then ['\\', 'b']
  else if c = Char.ofNat 0x09 then ['\\', 't']
  else if c = Char.ofNat 0x0a then ['\\', 'n']
  else if c = Char.ofNat 0x0c then ['\\', 'f']
  else if c = Char.ofNat 0x0d then ['\\', 'r']
  else if c.toNat < 0x20 then ['\\', 'u', '0', '0', hexDigit (c.toNat / 16), hexDigit (c.toNat % 16)]
  else [c]

/-- Escaped body of a string literal. -/
def escBody (s : String) : List Char := s.toList.flatMap escChar

/-- A JSON string literal. -/
def jStr (s : String) : List Char := '"' :: escBody s ++ ['"']

/-- The `"key":"value"` entries of the docs object, comma-separated, in map
order. -/
def entriesL : ManifestMap → List Char
  | [] => []
  | [(k, v)] => jStr k ++ ':' :: jStr v
  | (k, v) :: rest => jStr k ++ ':' :: jStr v ++ ',' :: entriesL rest

/-- The bytes `save_manifest` writes for a manifest. -/
def serializeManifest (m : ManifestM) : List Char :=
  "\x7b\"version\":".toList ++ natDigits m.version ++ ",\"docs\":\x7b".toList ++
    entriesL m.docs ++ "\x7d\x7d".toList

/-- State of the JSON completeness scan: nesting depth of braces outside
string literals, whether the scan is inside a string literal, and whether the
previous character was an unconsumed backslash escape. -/
structure ScanSt where
  depth : Nat
  inStr : Bool
  esc : Bool
  deriving DecidableEq, Repr

/-- One scan step. -/
def scanChar (st : ScanSt) (c : Char) : ScanSt :=
  if st.inStr then
    if st.esc then { st with esc := false }
    else if c = '\\' then { st with esc := true }
    else if c = '"' then { st with inStr := false }
    else st
  else
    if c = '"' then { st with inStr := true }
    else if c = '{' then { st with depth := st.depth + 1 }
    else if c = '}' then { st with depth := st.depth - 1 }
    else st

/-- Scan from a given state. -/
def scanFrom (st : ScanSt) (s : List Char) : ScanSt := s.foldl scanChar st

/-- A necessary condition for a string to be a complete JSON value of the
object-of-strings shape the manifest uses: nonempty, all braces outside
string literals matched, all string literals closed. -/
def jsonComplete (s : List Char) : Bool :=
  !s.isEmpty && scanFrom ⟨0, false, false⟩ s == ⟨0, false, false⟩

/-- Structural extraction behind the completeness gate: a strict
recursive-descent parse of the shape `save_manifest` writes (fuelled to be
structurally total).  serde_json additionally tolerates whitespace and field
reordering, which never arises for the files this development reasons
about. -/
def parseStringLit : Nat → List Char → Option (List Char × List Char)
  | 0, _ => none
  | _ + 1, [] => none
  | fuel + 1, c :: rest =>
    if c = '"' then some ([], rest)
    else if c = '\\' then
      match rest with
      | [] => none
      | e :: rest' =>
        let dec : Option (Char × List Char) :=
          if e = '"' then some ('"', rest')
          else if e = '\\' then some ('\\', rest')
          else if e = '/' then some ('/', rest')
          else if e = 'b' then some (Char.ofNat 0x08, rest')
          else if e = 't' then some (Char.ofNat 0x09, rest')
          else if e = 'n' then some (Char.ofNat 0x0a, rest')
          else if e = 'f' then some (Char.ofNat 0x0c, rest')
          else if e = 'r' then some (Char.ofNat 0x0d, rest')
          else if e = 'u' then
            match rest' with
            | h1 :: h2 :: h3 :: h4 :: rest'' =>
              let hv : Char → Option Nat := fun h =>
                if '0' ≤ h ∧ h ≤ '9' then some (h.toNat - 48)
                else if 'a' ≤ h ∧ h ≤ 'f' then some (h.toNat - 87)
                else if 'A' ≤ h ∧ h ≤ 'F' then some (h.toNat - 55)
                else none
              match hv h1, hv h2, hv h3, hv h4 with
              | some a, some b, some c', some d =>
                some (Char.ofNat (((a * 16 + b) * 16 + c') * 16 + d), rest'')
              | _, _, _, _ => none
            | _ => none
          else none
        match dec with
        | some (ch, r2) =>
          match parseStringLit fuel r2 with
          | some (s, r3) => some (ch :: s, r3)
          | none => none
        | none => none
    else
      match parseStringLit fuel rest with
      | some (s, r2) => some (c :: s, r2)
      | none => none

/-- Parse the decimal digits of a number. -/
def parseNatLit (s : List Char) : Option (Nat × List Char) :=
  let digits := s.takeWhile fun c => '0' ≤ c ∧ c ≤ '9'
  if digits.isEmpty then none
  else some (digits.foldl (fun acc c => acc * 10 + (c.toNat - 48)) 0, s.drop digits.length)

/-- Parse the entries of the docs object after its opening brace. -/
def parseEntries : Nat → List Char → ManifestMap → Option (ManifestMap × List Char)
  | 0, _, _ => none
  | _ + 1, '}' :: rest, acc => some (acc, rest)
  | fuel + 1, '"' :: rest, acc =>
    match parseStringLit fuel rest with
    | some (k, ':' :: '"' :: r2) =>
      match parseStringLit fuel r2 with
      | some (v, r3) =>
        match r3 with
        | ',' :: r4@('"' :: _) => parseEntries fuel r4 (mInsert ⟨k⟩ ⟨v⟩ acc)
        | '}' :: r4 => some (mInsert ⟨k⟩ ⟨v⟩ acc, r4)
        | _ => none
      | none => none
    | _ => none
  | _ + 1, _, _ => none

/-- Structural extraction of a manifest from the exact shape `save_manifest`
writes. -/
def extractManifest (s : List Char) : Option ManifestM :=
  match s with
  | '{' :: rest =>
    if "\"version\":".toList.isPrefixOf rest then
      match parseNatLit (rest.drop 10) with
      | some (v, r1) =>
        if ",\"docs\":\x7b".toList.isPrefixOf r1 then
          match parseEntries (r1.length + 1) (r1.drop 9) [] with
          | some (docs, r2) => if r2 = ['}'] then some ⟨v, docs⟩ else none
          | none => none
        else none
      | none => none
    else none
  | _ => none

/-- `serde_json::from_str::<Manifest>` as modeled here: the completeness scan
followed by structural extraction. -/
def parseManifest (s : List Char) : Except Unit ManifestM :=
  if jsonComplete s then
    match extractManifest s with
    | some m => .ok m
    | none => .error ()
  else .error ()

/-- `load_manifest` (indexer.rs:129-139) over the file contents: an absent
file yields the empty (default) manifest, otherwise the contents are
parsed, any failure surfacing as an error. -/
def load_manifest (file : Option (List Char)) : Except Unit ManifestM :=
  match file with
  | none => .ok ⟨0, []⟩
  | some data => parseManifest data

/-! ## Concrete hits of spec scenario 6 (the gutenberg re-rank case) -/

/-- Hit A of spec scenario 6: the main book page. -/
def hitA6 : SearchHitM :=
  { score := Score.ofInt 1
    doc_id := "kiwix:gutenberg:/A/moby_dick.html"
    source := "kiwix:gutenberg"
    title := "Moby Dick"
    preview := ""
    location := "/A/moby_dick.html"
    url := none }

/-- Hit B of spec scenario 6: the chapters page. -/
def hitB6 : SearchHitM :=
  { score := Score.ofInt 1
    doc_id := "kiwix:gutenberg:/A/Moby%20Dick%2C%20Chapters%201-5.html"
    source := "kiwix:gutenberg"
    title := "Moby Dick, Chapters 1-5"
    preview := ""
    location := "/A/Moby%20Dick%2C%20Chapters%201-5.html"
    url := none }

/-- Whether the first character is whitespace. -/
def headIsWs : List Char → Bool
  | [] => false
  | c :: _ => isRustWhitespace c

/-- A lowercase ASCII alphanumeric character (digit or `a`-`z`), the
alphabet C10 asserts for `normalize_for_matching` output. -/
def isLowerAlnumChar (c : Char) : Bool :=
  decide ((48 ≤ c.toNat ∧ c.toNat ≤ 57) ∨ (97 ≤ c.toNat ∧ c.toNat ≤ 122))

/-! ## Concrete fixtures used by witness theorems -/

/-- A trivial engine over an empty index whose oracles accept everything. -/
def engineW : LocalEngine :=
  { docs := []
    parseOk := fun _ => true
    queryMatches := fun _ _ => true
    score := fun _ _ => Score.ofInt 1 }

/-- A server state with no federation and no synthesizer. -/
def serverW : ServerState :=
  { engine := engineW, kiwix := none, ollama := none, defaultLimit := 20, maxLimit := 100 }

/-- Parameters with a blank query. -/
def paramsBlank : SearchParams :=
  { q := some "   ", limit := none, offset := none, source := some "docs", answer := some true }

/-- A kiwix client with two collections, one of which fails. -/
def kiwixW : KiwixState :=
  { collections := [⟨"gutenberg", "Gutenberg", "books"⟩, ⟨"wikipedia", "Wikipedia", "wiki"⟩]
    maxHitsPerCollection := 20
    htmlToText := fun s => s
    urlJoin := fun h => some ("http://kiwix.local/" ++ h)
    fetch := fun cid =>
      if cid = "wikipedia" then some (some 3, [⟨"/A/x", "X", "snippet"⟩])
      else none }

/-- A server state with the empty local index and the kiwix client above. -/
def serverKW : ServerState :=
  { engine := engineW, kiwix := some kiwixW, ollama := none, defaultLimit := 20, maxLimit := 100 }

/-- Parameters filtering on the single kiwix collection. -/
def paramsKW : SearchParams :=
  { q := some "x", limit := some 10, offset := none, source := some "kiwix:wikipedia"
    answer := none }

/-- The response the handler produces for `serverKW`/`paramsKW` (the single
wikipedia hit, re-rank-scored 1160). -/
def respKW : SearchResponseM :=
  { total_hits := 3
    hits := [{ score := ⟨116000, 100, by decide⟩
               doc_id := "kiwix:wikipedia:/A/x"
               source := "kiwix:wikipedia"
               title := "X"
               preview := "snippet"
               location := "/A/x"
               url := some "http://kiwix.local//A/x" }]
    answer := none }

/-- Two stable documents, as a filesystem source would emit them. -/
def docW1 : RawDocM :=
  { doc_id := "fs:corpus:a.txt", source := "corpus", title := "a", body := "hello world"
    preview := "hello world", location := "a.txt", url := none, fingerprint := "11:0" }

/-- Second stable document. -/
def docW2 : RawDocM :=
  { doc_id := "fs:corpus:b.md", source := "corpus", title := "b", body := "Goodbye"
    preview := "Goodbye", location := "b.md", url := none, fingerprint := "9:0" }

/-- The completeness-scan state is strictly inside the top-level JSON value:
positive brace depth or inside a string literal.  Every proper nonempty prefix
of `save_manifest`'s output leaves the scan in such a state. -/
def ScanSt.Open (st : ScanSt) : Prop := 1 ≤ st.depth ∨ st.inStr = true

/-- Bool check that after every nonempty prefix of `s` the scan state (from
`st`) is open; used to discharge concrete literal segments by evaluation. -/
def segChain : ScanSt → List Char → Bool
  | _, [] => true
  | st, c :: rest =>
    (1 ≤ (scanChar st c).depth || (scanChar st c).inStr) && segChain (scanChar st c) rest

/-- Witness fixture: the document the JSONL line
`{"id":"1","title":"T","body":"a  b c"}` yields at `max_indexed_chars = 8`. -/
def jdocW : RawDocM :=
  { doc_id := "jsonl:news:1", source := "news", title := "T", body := "a b c"
    preview := "a b c", location := "d.jsonl:1", url := none, fingerprint := "fp" }

/-- Witness fixture: the document the StackExchange row
`<row Id="1" Title="abc"/>` yields at `max_indexed_chars = 1` (adopted
title body). -/
def sdocW : RawDocM :=
  { doc_id := "stackexchange:se:1", source := "se", title := "abc", body := "abc"
    preview := "abc", location := "Posts.xml#1", url := none, fingerprint := ":0" }

/-! # Lemmas

Everything from here on is a proof; the definitions above are complete. -/

/-! ## Whitespace-shape lemmas -/

/-- `dropTrailingWs` returns a prefix of its input. -/
theorem dropTrailingWs_pre (l : List Char) : dropTrailingWs l <+: l := by
  induction l with
  | nil => exact List.nil_prefix
  | cons c rest ih =>
    simp only [dropTrailingWs]
    split
    · exact List.nil_prefix
    · exact (List.prefix_cons_inj c).mpr ih

/-- Left part of an append inherits space-pair freedom. -/
theorem hasTwoSpaces_append_left {a b : List Char}
    (h : hasTwoSpaces (a ++ b) = false) : hasTwoSpaces a = false := by
  induction a with
  | nil => rfl
  | cons x rest ih =>
    cases rest with
    | nil => rfl
    | cons y r =>
      simp only [List.cons_append, hasTwoSpaces, Bool.or_eq_false_iff] at h ⊢
      exact ⟨h.1, ih h.2⟩

/-- Right part of an append inherits space-pair freedom. -/
theorem hasTwoSpaces_append_right {a b : List Char}
    (h : hasTwoSpaces (a ++ b) = false) : hasTwoSpaces b = false := by
  induction a with
  | nil => exact h
  | cons x rest ih =>
    apply ih
    cases hr : rest ++ b with
    | nil => rfl
    | cons y r =>
      rw [List.cons_append, hr, hasTwoSpaces, Bool.or_eq_false_iff] at h
      exact h.2

/-- A prefix inherits space-pair freedom. -/
theorem hasTwoSpaces_of_pre {p l : List Char} (hp : p <+: l)
    (h : hasTwoSpaces l = false) : hasTwoSpaces p = false := by
  obtain ⟨t, rfl⟩ := hp
  exact hasTwoSpaces_append_left h

/-- A suffix inherits space-pair freedom. -/
theorem hasTwoSpaces_of_suffix {p l : List Char} (hp : p <:+ l)
    (h : hasTwoSpaces l = false) : hasTwoSpaces p = false := by
  obtain ⟨t, rfl⟩ := hp
  exact hasTwoSpaces_append_right h

/-- A space head is a whitespace head. -/
theorem headSpace_eq_false_of_headIsWs {l : List Char} (h : headIsWs l = false) :
    headSpace l = false := by
  cases l with
  | nil => rfl
  | cons c rest =>
    simp only [headIsWs] at h
    simp only [headSpace, beq_eq_false_iff_ne, ne_eq]
    intro hc
    rw [hc] at h
    exact absurd h (by decide)

/-- `dropWhile` on whitespace leaves a non-whitespace head. -/
theorem headIsWs_dropLeadingWs (l : List Char) : headIsWs (dropLeadingWs l) = false := by
  induction l with
  | nil => rfl
  | cons c rest ih =>
    simp only [dropLeadingWs, List.dropWhile_cons]
    split
    · exact ih
    · rename_i hns
      simpa [headIsWs] using hns

/-- A prefix of a list with a non-whitespace head also has one. -/
theorem headIsWs_of_pre {p l : List Char} (hp : p <+: l)
    (h : headIsWs l = false) : headIsWs p = false := by
  cases p with
  | nil => rfl
  | cons c rest =>
    obtain ⟨t, ht⟩ := hp
    cases l with
    | nil => simp at ht
    | cons c' rest' =>
      rw [List.cons_append] at ht
      cases ht
      exact h

/-- `dropTrailingWs` leaves a non-whitespace last character. -/
theorem lastSpace_dropTrailingWs (l : List Char) : lastSpace (dropTrailingWs l) = false := by
  induction l with
  | nil => rfl
  | cons c rest ih =>
    simp only [dropTrailingWs]
    cases hr : dropTrailingWs rest with
    | nil =>
      by_cases hw : isRustWhitespace c
      · simp [hr, hw, lastSpace]
      · simp only [hr, hw, and_false, if_false, and_true]
        simp only [lastSpace, beq_eq_false_iff_ne, ne_eq]
        intro hceq
        subst hceq
        exact hw (by decide)
    | cons y r =>
      rw [hr] at ih
      have hcond : ¬ ((y :: r : List Char) = [] ∧ isRustWhitespace c = true) := by simp
      simp only [hr, if_neg hcond]
      simpa [lastSpace] using ih

/-- The whitespace-collapse loop never emits two adjacent spaces; with the
flag set its output does not start with a space. -/
theorem normWsCore_shape : ∀ (s : List Char) (b : Bool),
    (b = true → headSpace (normWsCore b s) = false) ∧ hasTwoSpaces (normWsCore b s) = false := by
  intro s
  induction s with
  | nil => intro b; exact ⟨fun _ => rfl, rfl⟩
  | cons c rest ih =>
    intro b
    by_cases hw : isRustWhitespace c
    · cases b with
      | true =>
        have hout : normWsCore true (c :: rest) = normWsCore true rest := by
          simp [normWsCore, hw]
        rw [hout]
        exact ⟨fun _ => (ih true).1 rfl, (ih true).2⟩
      | false =>
        have hout : normWsCore false (c :: rest) = ' ' :: normWsCore true rest := by
          simp [normWsCore, hw]
        rw [hout]
        constructor
        · intro h; exact absurd h (by decide)
        · cases hrec : normWsCore true rest with
          | nil => rfl
          | cons y r =>
            have hy : headSpace (y :: r) = false := by rw [← hrec]; exact (ih true).1 rfl
            have hts : hasTwoSpaces (y :: r) = false := by rw [← hrec]; exact (ih true).2
            simp only [hasTwoSpaces, Bool.or_eq_false_iff]
            refine ⟨?_, hts⟩
            simp only [headSpace] at hy
            simp [hy]
    · have hout : normWsCore b (c :: rest) = c :: normWsCore false rest := by
        cases b <;> simp [normWsCore, hw]
      rw [hout]
      have hcs : (c == ' ') = false := by
        simp only [beq_eq_false_iff_ne, ne_eq]
        intro h; subst h; exact hw (by decide)
      constructor
      · intro _; simpa [headSpace] using hcs
      · cases hrec : normWsCore false rest with
        | nil => rfl
        | cons y r =>
          have hts : hasTwoSpaces (y :: r) = false := by rw [← hrec]; exact (ih false).2
          simp [hasTwoSpaces, hcs, hts]

/-- Shape of `normalize_whitespace` output: no adjacent spaces, no leading
whitespace, no trailing space. -/
theorem normalizeWhitespaceL_shape (s : List Char) :
    hasTwoSpaces (normalizeWhitespaceL s) = false ∧
    headIsWs (normalizeWhitespaceL s) = false ∧
    lastSpace (normalizeWhitespaceL s) = false := by
  unfold normalizeWhitespaceL trimL
  refine ⟨?_, ?_, lastSpace_dropTrailingWs _⟩
  · have h1 : hasTwoSpaces (normWsCore false s) = false := (normWsCore_shape s false).2
    have h2 : hasTwoSpaces (dropLeadingWs (normWsCore false s)) = false := by
      unfold dropLeadingWs
      exact hasTwoSpaces_of_suffix (List.dropWhile_suffix _) h1
    exact hasTwoSpaces_of_pre (dropTrailingWs_pre _) h2
  · exact headIsWs_of_pre (dropTrailingWs_pre _) (headIsWs_dropLeadingWs _)

/-- Truncation yields a prefix. -/
theorem truncateCharsL_pre (s : List Char) (n : Nat) : truncateCharsL s n <+: s := by
  unfold truncateCharsL
  split
  · exact List.nil_prefix
  · exact List.take_prefix n s

/-- Truncation respects the bound. -/
theorem truncateCharsL_length_le (s : List Char) (n : Nat) :
    (truncateCharsL s n).length ≤ n := by
  unfold truncateCharsL
  split
  · simp
  · simp [List.length_take]

/-- A short-enough input is left alone by truncation. -/
theorem truncateCharsL_of_le {s : List Char} {n : Nat} (h : s.length ≤ n) :
    truncateCharsL s n = s := by
  unfold truncateCharsL
  split
  · rename_i h0
    subst h0
    exact (List.length_eq_zero.mp (Nat.le_zero.mp h)).symm
  · exact List.take_of_length_le h

/-- `preview_from_text`: nothing cut off means the input is returned, a cut
appends the ellipsis; the cut happens exactly when the input exceeds the
bound. -/
theorem previewFromTextL_eq (s : List Char) {n : Nat} (hn : n ≠ 0) :
    (s.length ≤ n → previewFromTextL s n = s) ∧
    (n < s.length → previewFromTextL s n = s.take n ++ ['.', '.', '.']) := by
  unfold previewFromTextL truncateCharsL
  simp only [hn, if_false]
  constructor
  · intro h
    rw [List.take_of_length_le h]
    simp
  · intro h
    have hlt : (s.take n).length < s.length := by
      rw [List.length_take]
      omega
    rw [if_pos hlt]

/-- Appending to a space-pair-free list whose suffix does not start with a
space keeps it space-pair free. -/
theorem hasTwoSpaces_append_of {a b : List Char} (ha : hasTwoSpaces a = false)
    (hb : hasTwoSpaces b = false) (hhb : headSpace b = false) :
    hasTwoSpaces (a ++ b) = false := by
  induction a with
  | nil => exact hb
  | cons x rest ih =>
    cases rest with
    | nil =>
      cases b with
      | nil => rfl
      | cons y r =>
        simp only [List.singleton_append, hasTwoSpaces, Bool.or_eq_false_iff]
        refine ⟨?_, hb⟩
        simp only [headSpace] at hhb
        simp [hhb]
    | cons z rest' =>
      simp only [hasTwoSpaces, Bool.or_eq_false_iff] at ha
      have := ih ha.2
      simp only [List.cons_append, hasTwoSpaces, Bool.or_eq_false_iff] at this ⊢
      exact ⟨ha.1, this⟩

/-- Appending an ellipsis leaves the last character a dot. -/
theorem lastSpace_append_dots (a : List Char) :
    lastSpace (a ++ ['.', '.', '.']) = false := by
  induction a with
  | nil => rfl
  | cons x rest ih =>
    cases hr : rest ++ ['.', '.', '.'] with
    | nil => simp at hr
    | cons y r =>
      rw [List.cons_append, hr]
      simp only [lastSpace]
      rw [← hr]
      exact ih

/-- The head survives a nonempty left append. -/
theorem headSpace_append_left {a b : List Char} (ha : a ≠ []) :
    headSpace (a ++ b) = headSpace a := by
  cases a with
  | nil => exact absurd rfl ha
  | cons x rest => rfl


/-- C5: re-ranking spec scenario 6's two hits for the query `"moby dick"`
puts A (the plain book page) strictly above B (the chapters page): A's
re-rank score is strictly larger, and the sort yields A first from either
input order. -/
theorem rerank_gutenberg_scenario :
    (rerank_hits "moby dick" [hitB6, hitA6]).map SearchHitM.doc_id
      = [hitA6.doc_id, hitB6.doc_id]
    ∧ (rerank_hits "moby dick" [hitA6, hitB6]).map SearchHitM.doc_id
      = [hitA6.doc_id, hitB6.doc_id]
    ∧ Score.blt
        (rerank_score hitB6 (normalizeForMatchingL "moby dick".toList)
          (tokenizeL (normalizeForMatchingL "moby dick".toList)))
        (rerank_score hitA6 (normalizeForMatchingL "moby dick".toList)
          (tokenizeL (normalizeForMatchingL "moby dick".toList))) = true :=
  ⟨by decide, by decide, by decide⟩

/-! ## C10: `normalize_for_matching` -/

/-- Valid-range computation for the `+32` lowercase shift. -/
theorem toNat_ofNat_plus32 {t : Nat} (h : t ≤ 90) :
    (Char.ofNat (t + 32)).toNat = t + 32 := by
  have hv : (t + 32).isValidChar := Or.inl (by omega)
  unfold Char.ofNat
  rw [dif_pos hv]
  rfl

/-- An ASCII-lowercased character that is alphanumeric is a digit or a
lowercase letter. -/
theorem isLowerAlnum_toAsciiLower {c : Char}
    (h : isAsciiAlnum (toAsciiLower c) = true) :
    isLowerAlnumChar (toAsciiLower c) = true := by
  unfold toAsciiLower at h ⊢
  by_cases hu : 65 ≤ c.toNat ∧ c.toNat ≤ 90
  · rw [if_pos hu] at h ⊢
    have ht := toNat_ofNat_plus32 hu.2
    unfold isLowerAlnumChar
    simp only [ht, decide_eq_true_eq]
    omega
  · rw [if_neg hu] at h ⊢
    unfold isAsciiAlnum at h
    unfold isLowerAlnumChar
    simp only [decide_eq_true_eq] at h ⊢
    omega

/-- An alphanumeric character is not the space. -/
theorem ne_space_of_isAsciiAlnum {c : Char} (h : isAsciiAlnum c = true) :
    (c == ' ') = false := by
  simp only [beq_eq_false_iff_ne, ne_eq]
  intro hc
  subst hc
  exact absurd h (by decide)

/-- Shape of the `normalize_for_matching` loop output: only lowercase
alphanumerics and spaces, never two adjacent spaces, and (with the flag set)
no leading space. -/
theorem nfmCore_shape : ∀ (s : List Char) (b : Bool),
    (∀ c ∈ nfmCore b s, isLowerAlnumChar c = true ∨ c = ' ') ∧
    (b = true → headSpace (nfmCore b s) = false) ∧
    hasTwoSpaces (nfmCore b s) = false := by
  intro s
  induction s with
  | nil => intro b; exact ⟨by intro c hc; simp [nfmCore] at hc, fun _ => rfl, rfl⟩
  | cons c rest ih =>
    intro b
    by_cases ha : isAsciiAlnum (toAsciiLower c) = true
    · have hout : nfmCore b (c :: rest) = toAsciiLower c :: nfmCore false rest := by
        cases b <;> simp [nfmCore, ha]
      rw [hout]
      have hcs := ne_space_of_isAsciiAlnum ha
      refine ⟨?_, ?_, ?_⟩
      · intro ch hch
        rcases List.mem_cons.mp hch with hh | hh
        · subst hh; exact Or.inl (isLowerAlnum_toAsciiLower ha)
        · exact (ih false).1 ch hh
      · intro _; simpa [headSpace] using hcs
      · cases hrec : nfmCore false rest with
        | nil => rfl
        | cons y r =>
          have hts : hasTwoSpaces (y :: r) = false := by rw [← hrec]; exact (ih false).2.2
          simp [hasTwoSpaces, hcs, hts]
    · cases b with
      | true =>
        have hout : nfmCore true (c :: rest) = nfmCore true rest := by
          simp [nfmCore, ha]
        rw [hout]
        exact ⟨(ih true).1, fun _ => (ih true).2.1 rfl, (ih true).2.2⟩
      | false =>
        have hout : nfmCore false (c :: rest) = ' ' :: nfmCore true rest := by
          simp [nfmCore, ha]
        rw [hout]
        refine ⟨?_, ?_, ?_⟩
        · intro ch hch
          rcases List.mem_cons.mp hch with hh | hh
          · exact Or.inr hh
          · exact (ih true).1 ch hh
        · intro h; exact absurd h (by decide)
        · cases hrec : nfmCore true rest with
          | nil => rfl
          | cons y r =>
            have hy : headSpace (y :: r) = false := by rw [← hrec]; exact (ih true).2.1 rfl
            have hts : hasTwoSpaces (y :: r) = false := by rw [← hrec]; exact (ih true).2.2
            simp only [headSpace] at hy
            simp [hasTwoSpaces, hy, hts]

/-- Replacing a non-alphanumeric character with a space does not change the
`normalize_for_matching` loop: both are mere separators. -/
theorem nfmCore_subst (c : Char) (hc : isAsciiAlnum c = false) :
    ∀ (u v : List Char) (b : Bool),
      nfmCore b (u ++ c :: v) = nfmCore b (u ++ ' ' :: v) := by
  have hlc : toAsciiLower c = c := by
    unfold toAsciiLower
    split
    · rename_i hu
      unfold isAsciiAlnum at hc
      simp only [decide_eq_false_iff_not] at hc
      omega
    · rfl
  have hca : isAsciiAlnum (toAsciiLower c) = false := by rw [hlc]; exact hc
  intro u
  induction u with
  | nil =>
    intro v b
    simp only [List.nil_append]
    cases b <;>
      simp [nfmCore, hca, (by decide : toAsciiLower ' ' = ' '),
        (by decide : isAsciiAlnum ' ' = false)]
  | cons x u' ih =>
    intro v b
    simp only [List.cons_append, nfmCore]
    by_cases hx : isAsciiAlnum (toAsciiLower x) = true <;>
      cases b <;> simp [hx, ih]

/-- C10: `normalize_for_matching` emits only lowercase ASCII alphanumerics
separated by single spaces, with no leading or trailing space; every
non-alphanumeric character — ASCII or not — acts exactly as a separator
(replacing it by a space leaves the output unchanged). -/
theorem normalize_for_matching_spec (s : String) (u v : List Char) (c : Char)
    (hc : isAsciiAlnum c = false) :
    (∀ ch ∈ (normalize_for_matching s).toList, isLowerAlnumChar ch = true ∨ ch = ' ')
    ∧ hasTwoSpaces (normalize_for_matching s).toList = false
    ∧ headSpace (normalize_for_matching s).toList = false
    ∧ lastSpace (normalize_for_matching s).toList = false
    ∧ normalizeForMatchingL (u ++ c :: v) = normalizeForMatchingL (u ++ ' ' :: v) := by
  have hshape := nfmCore_shape s.toList false
  have hlist : (normalize_for_matching s).toList = normalizeForMatchingL s.toList := rfl
  rw [hlist]
  unfold normalizeForMatchingL trimL
  refine ⟨?_, ?_, ?_, lastSpace_dropTrailingWs _, ?_⟩
  · intro ch hch
    have h1 : ch ∈ dropLeadingWs (nfmCore false s.toList) :=
      (dropTrailingWs_pre _).subset hch
    have h2 : ch ∈ nfmCore false s.toList := by
      unfold dropLeadingWs at h1
      exact (List.dropWhile_suffix _).subset h1
    exact hshape.1 ch h2
  · have h2 : hasTwoSpaces (dropLeadingWs (nfmCore false s.toList)) = false := by
      unfold dropLeadingWs
      exact hasTwoSpaces_of_suffix (List.dropWhile_suffix _) hshape.2.2
    exact hasTwoSpaces_of_pre (dropTrailingWs_pre _) h2
  · exact headSpace_eq_false_of_headIsWs
      (headIsWs_of_pre (dropTrailingWs_pre _) (headIsWs_dropLeadingWs _))
  · rw [nfmCore_subst c hc u v false]

/-- Closed instance of C10's theorem at a concrete non-ASCII separator. -/
theorem normalize_for_matching_spec_witness :
    isAsciiAlnum 'é' = false
    ∧ normalizeForMatchingL ("Ab".toList ++ 'é' :: "9z".toList)
      = normalizeForMatchingL ("Ab".toList ++ ' ' :: "9z".toList) :=
  ⟨by decide,
    (normalize_for_matching_spec "x" "Ab".toList "9z".toList 'é' (by decide)).2.2.2.2⟩

/-! ## C6: StackExchange rows -/

/-- A nonempty string with a non-whitespace head normalizes to a nonempty
string. -/
theorem normalizeWhitespaceL_ne_nil {l : List Char} (hne : l ≠ [])
    (hh : headIsWs l = false) : normalizeWhitespaceL l ≠ [] := by
  cases l with
  | nil => exact absurd rfl hne
  | cons c t =>
    simp only [headIsWs] at hh
    unfold normalizeWhitespaceL trimL
    have h1 : normWsCore false (c :: t) = c :: normWsCore false t := by
      simp [normWsCore, hh]
    rw [h1]
    have h2 : dropLeadingWs (c :: normWsCore false t) = c :: normWsCore false t := by
      unfold dropLeadingWs
      rw [List.dropWhile_cons]
      simp [hh]
    rw [h2]
    simp only [dropTrailingWs]
    split
    · rename_i hcond
      rw [hh] at hcond
      simp at hcond
    · simp

/-- The preview of a text with a non-whitespace head also has one. -/
theorem headIsWs_previewFromTextL {l : List Char} (n : Nat)
    (hh : headIsWs l = false) : headIsWs (previewFromTextL l n) = false := by
  unfold previewFromTextL
  dsimp only
  split
  · cases ht : truncateCharsL l n with
    | nil => decide
    | cons c r =>
      rw [List.cons_append]
      have hcr := headIsWs_of_pre (ht ▸ truncateCharsL_pre l n) hh
      simpa [headIsWs] using hcr
  · exact headIsWs_of_pre (truncateCharsL_pre l n) hh

/-- The preview of a nonempty text is nonempty (bound positive). -/
theorem previewFromTextL_ne_nil {l : List Char} {n : Nat} (hne : l ≠ [])
    (hn : n ≠ 0) : previewFromTextL l n ≠ [] := by
  unfold previewFromTextL
  dsimp only
  split
  · simp
  · unfold truncateCharsL
    rw [if_neg hn]
    cases l with
    | nil => exact absurd rfl hne
    | cons c r =>
      cases n with
      | zero => exact absurd rfl hn
      | succ m => simp

/-- Build a `String` from a nonempty list: it is not the empty string. -/
theorem mk_ne_empty_of_ne_nil {l : List Char} (h : l ≠ []) : (⟨l⟩ : String) ≠ "" := by
  intro hs
  exact h (congrArg String.toList hs)

/-- A truncation below the input length cuts exactly at the bound. -/
theorem truncateCharsL_length_of_lt {s : List Char} {n : Nat} (h : n < s.length) :
    (truncateCharsL s n).length = n := by
  unfold truncateCharsL
  split
  · rename_i h0
    subst h0
    rfl
  · rw [List.length_take]
    omega

/-- Shape of `preview_from_text` at bound 280 over any body with no adjacent
spaces and a non-whitespace head: bounded by 283, same shape, identity below
the bound, ellipsis above it, and no trailing space when the body has none. -/
theorem previewFromTextL_shape {body : List Char} (h2 : hasTwoSpaces body = false)
    (hh : headIsWs body = false) :
    (previewFromTextL body 280).length ≤ 283
    ∧ hasTwoSpaces (previewFromTextL body 280) = false
    ∧ headSpace (previewFromTextL body 280) = false
    ∧ (body.length ≤ 280 → previewFromTextL body 280 = body)
    ∧ (280 < body.length → previewFromTextL body 280 = body.take 280 ++ ['.', '.', '.'])
    ∧ (lastSpace body = false → lastSpace (previewFromTextL body 280) = false) := by
  have hpeq := previewFromTextL_eq body (n := 280) (by decide)
  have hhs : headSpace body = false := headSpace_eq_false_of_headIsWs hh
  refine ⟨?_, ?_, ?_, hpeq.1, hpeq.2, ?_⟩
  · by_cases hlen : body.length ≤ 280
    · rw [hpeq.1 hlen]
      omega
    · rw [hpeq.2 (by omega)]
      have h280 : (body.take 280).length = 280 := by rw [List.length_take]; omega
      simp [List.length_append, h280]
  · by_cases hlen : body.length ≤ 280
    · rw [hpeq.1 hlen]
      exact h2
    · rw [hpeq.2 (by omega)]
      exact hasTwoSpaces_append_of
        (hasTwoSpaces_of_pre (List.take_prefix _ _) h2) (by decide) (by decide)
  · by_cases hlen : body.length ≤ 280
    · rw [hpeq.1 hlen]
      exact hhs
    · rw [hpeq.2 (by omega)]
      have hne : body.take 280 ≠ [] := by
        have h280 : (body.take 280).length = 280 := by rw [List.length_take]; omega
        intro hemp
        rw [hemp] at h280
        simp at h280
      rw [headSpace_append_left hne]
      exact headSpace_eq_false_of_headIsWs (headIsWs_of_pre (List.take_prefix _ _) hh)
  · intro hlast
    by_cases hlen : body.length ≤ 280
    · rw [hpeq.1 hlen]
      exact hlast
    · rw [hpeq.2 (by omega)]
      exact lastSpace_append_dots _

/-- A member failing the predicate survives `dropWhile`. -/
theorem mem_dropWhile_of_not {p : Char → Bool} {c : Char} :
    ∀ {l : List Char}, c ∈ l → p c = false → c ∈ l.dropWhile p := by
  intro l
  induction l with
  | nil =>
    intro hc _
    exact absurd hc (List.not_mem_nil c)
  | cons x rest ih =>
    intro hc hp
    rw [List.dropWhile_cons]
    by_cases hpx : p x = true
    · rw [if_pos hpx]
      rcases List.mem_cons.mp hc with h1 | h1
      · subst h1
        rw [hp] at hpx
        cases hpx
      · exact ih h1 hp
    · rw [if_neg hpx]
      exact hc

/-- A non-whitespace member survives the trailing-whitespace drop. -/
theorem mem_dropTrailingWs {c : Char} :
    ∀ {l : List Char}, c ∈ l → isRustWhitespace c = false → c ∈ dropTrailingWs l := by
  intro l
  induction l with
  | nil =>
    intro hc _
    exact absurd hc (List.not_mem_nil c)
  | cons x rest ih =>
    intro hc hw
    unfold dropTrailingWs
    dsimp only
    rcases List.mem_cons.mp hc with h1 | h1
    · subst h1
      rw [if_neg fun hcon => by simp [hw] at hcon]
      exact List.mem_cons_self _ _
    · have hr := ih h1 hw
      have hrne : dropTrailingWs rest ≠ [] := by
        intro he
        rw [he] at hr
        exact absurd hr (List.not_mem_nil c)
      rw [if_neg fun hcon => hrne hcon.1]
      exact List.mem_cons_of_mem _ hr

/-- A non-whitespace member survives whitespace collapsing. -/
theorem mem_normWsCore {c : Char} (hw : isRustWhitespace c = false) :
    ∀ (l : List Char) (b : Bool), c ∈ l → c ∈ normWsCore b l := by
  intro l
  induction l with
  | nil =>
    intro b hc
    exact absurd hc (List.not_mem_nil c)
  | cons x rest ih =>
    intro b hc
    unfold normWsCore
    by_cases hx : isRustWhitespace x = true
    · rw [if_pos hx]
      have h1 : c ∈ rest := by
        rcases List.mem_cons.mp hc with h1 | h1
        · subst h1
          rw [hw] at hx
          cases hx
        · exact h1
      split
      · exact ih true h1
      · exact List.mem_cons_of_mem _ (ih true h1)
    · rw [if_neg hx]
      rcases List.mem_cons.mp hc with h1 | h1
      · subst h1
        exact List.mem_cons_self _ _
      · exact List.mem_cons_of_mem _ (ih false h1)

/-- A string with nonempty trim has nonempty whitespace normalization (both
are empty exactly on all-whitespace strings). -/
theorem normalize_ne_empty_of_trim {t : String} (h : strTrim t ≠ "") :
    normalize_whitespace t ≠ "" := by
  have hl : trimL t.toList ≠ [] := by
    intro he
    refine h ?_
    unfold strTrim
    rw [he]
  cases hcase : trimL t.toList with
  | nil => exact absurd hcase hl
  | cons c rest =>
    have hchd : headIsWs (trimL t.toList) = false := by
      unfold trimL
      exact headIsWs_of_pre (dropTrailingWs_pre _) (headIsWs_dropLeadingWs _)
    rw [hcase] at hchd
    have hcw : isRustWhitespace c = false := by simpa [headIsWs] using hchd
    have hcmem : c ∈ t.toList := by
      have h1 : c ∈ trimL t.toList := by
        rw [hcase]
        exact List.mem_cons_self _ _
      unfold trimL at h1
      have h2 : c ∈ dropLeadingWs t.toList := (dropTrailingWs_pre _).subset h1
      unfold dropLeadingWs at h2
      exact (List.dropWhile_suffix _).subset h2
    unfold normalize_whitespace
    apply mk_ne_empty_of_ne_nil
    have m1 : c ∈ normWsCore false t.toList := mem_normWsCore hcw t.toList false hcmem
    have m2 : c ∈ dropLeadingWs (normWsCore false t.toList) := by
      unfold dropLeadingWs
      exact mem_dropWhile_of_not m1 hcw
    have m3 : c ∈ dropTrailingWs (dropLeadingWs (normWsCore false t.toList)) :=
      mem_dropTrailingWs m2 hcw
    intro he
    rw [show normalizeWhitespaceL t.toList
        = dropTrailingWs (dropLeadingWs (normWsCore false t.toList)) from rfl] at he
    rw [he] at m3
    exact absurd m3 (List.not_mem_nil c)

/-- The bundled body/preview shape of a truncated-then-normalized text, as
the filesystem and JSONL ingesters and the StackExchange non-empty-body path
build it. -/
theorem bodyPreview_shape (b : String) (n : Nat) :
    (truncate_chars (normalize_whitespace b) n).toList.length ≤ n
    ∧ hasTwoSpaces (truncate_chars (normalize_whitespace b) n).toList = false
    ∧ headSpace (truncate_chars (normalize_whitespace b) n).toList = false
    ∧ (lastSpace (truncate_chars (normalize_whitespace b) n).toList = false
        ∨ (truncate_chars (normalize_whitespace b) n).toList.length = n)
    ∧ (preview_from_text (truncate_chars (normalize_whitespace b) n) 280).toList.length ≤ 283
    ∧ hasTwoSpaces
        (preview_from_text (truncate_chars (normalize_whitespace b) n) 280).toList = false
    ∧ headSpace
        (preview_from_text (truncate_chars (normalize_whitespace b) n) 280).toList = false
    ∧ ((truncate_chars (normalize_whitespace b) n).toList.length ≤ 280 →
        preview_from_text (truncate_chars (normalize_whitespace b) n) 280
          = truncate_chars (normalize_whitespace b) n)
    ∧ (280 < (truncate_chars (normalize_whitespace b) n).toList.length →
        (preview_from_text (truncate_chars (normalize_whitespace b) n) 280).toList
          = (truncate_chars (normalize_whitespace b) n).toList.take 280 ++ ['.', '.', '.'])
    ∧ (lastSpace
          (preview_from_text (truncate_chars (normalize_whitespace b) n) 280).toList = false
      ∨ preview_from_text (truncate_chars (normalize_whitespace b) n) 280
        = truncate_chars (normalize_whitespace b) n) := by
  obtain ⟨hts, hhw, hls⟩ := normalizeWhitespaceL_shape b.toList
  have hbt : (truncate_chars (normalize_whitespace b) n).toList
      = truncateCharsL (normalizeWhitespaceL b.toList) n := rfl
  have hpt : (preview_from_text (truncate_chars (normalize_whitespace b) n) 280).toList
      = previewFromTextL (truncateCharsL (normalizeWhitespaceL b.toList) n) 280 := rfl
  rw [hbt, hpt]
  have hpre : truncateCharsL (normalizeWhitespaceL b.toList) n
      <+: normalizeWhitespaceL b.toList := truncateCharsL_pre _ n
  have hbts : hasTwoSpaces (truncateCharsL (normalizeWhitespaceL b.toList) n) = false :=
    hasTwoSpaces_of_pre hpre hts
  have hbhw : headIsWs (truncateCharsL (normalizeWhitespaceL b.toList) n) = false :=
    headIsWs_of_pre hpre hhw
  have hblast : lastSpace (truncateCharsL (normalizeWhitespaceL b.toList) n) = false
      ∨ (truncateCharsL (normalizeWhitespaceL b.toList) n).length = n := by
    by_cases hle : (normalizeWhitespaceL b.toList).length ≤ n
    · left
      rw [truncateCharsL_of_le hle]
      exact hls
    · right
      exact truncateCharsL_length_of_lt (by omega)
  obtain ⟨p1, p2, p3, p4, p5, p6⟩ := previewFromTextL_shape hbts hbhw
  have h8 : (truncateCharsL (normalizeWhitespaceL b.toList) n).length ≤ 280 →
      preview_from_text (truncate_chars (normalize_whitespace b) n) 280
        = truncate_chars (normalize_whitespace b) n := by
    intro hle
    show (⟨previewFromTextL (truncateCharsL (normalizeWhitespaceL b.toList) n) 280⟩ : String)
        = ⟨truncateCharsL (normalizeWhitespaceL b.toList) n⟩
    rw [p4 hle]
  refine ⟨truncateCharsL_length_le _ n, hbts,
    headSpace_eq_false_of_headIsWs hbhw, hblast, p1, p2, p3, h8, p5, ?_⟩
  by_cases hle : (truncateCharsL (normalizeWhitespaceL b.toList) n).length ≤ 280
  · exact Or.inr (h8 hle)
  · left
    rw [p5 (by omega)]
    exact lastSpace_append_dots _

/-- The bundled body/preview shape when the body is a bare
`normalize_whitespace` output, as the StackExchange empty-body path adopts
the title. -/
theorem normPreview_shape (t : String) :
    hasTwoSpaces (normalize_whitespace t).toList = false
    ∧ headSpace (normalize_whitespace t).toList = false
    ∧ lastSpace (normalize_whitespace t).toList = false
    ∧ (preview_from_text (normalize_whitespace t) 280).toList.length ≤ 283
    ∧ hasTwoSpaces (preview_from_text (normalize_whitespace t) 280).toList = false
    ∧ headSpace (preview_from_text (normalize_whitespace t) 280).toList = false
    ∧ ((normalize_whitespace t).toList.length ≤ 280 →
        preview_from_text (normalize_whitespace t) 280 = normalize_whitespace t)
    ∧ (280 < (normalize_whitespace t).toList.length →
        (preview_from_text (normalize_whitespace t) 280).toList
          = (normalize_whitespace t).toList.take 280 ++ ['.', '.', '.'])
    ∧ lastSpace (preview_from_text (normalize_whitespace t) 280).toList = false := by
  obtain ⟨hts, hhw, hls⟩ := normalizeWhitespaceL_shape t.toList
  have hbt : (normalize_whitespace t).toList = normalizeWhitespaceL t.toList := rfl
  have hpt : (preview_from_text (normalize_whitespace t) 280).toList
      = previewFromTextL (normalizeWhitespaceL t.toList) 280 := rfl
  rw [hbt, hpt]
  obtain ⟨p1, p2, p3, p4, p5, p6⟩ := previewFromTextL_shape hts hhw
  refine ⟨hts, headSpace_eq_false_of_headIsWs hhw, hls, p1, p2, p3, ?_, p5, p6 hls⟩
  intro hle
  show (⟨previewFromTextL (normalizeWhitespaceL t.toList) 280⟩ : String)
      = ⟨normalizeWhitespaceL t.toList⟩
  rw [p4 hle]

/-- C4 (amended): for every document any of the three ingesters emits, the
preview has at most 283 codepoints, equals the body when the body has at
most 280 codepoints and otherwise is the body's first 280 codepoints
followed by the three-dot ellipsis; body and preview contain no two adjacent
spaces and no leading space; the body can end in a space only when
truncation cut it exactly at `max_indexed_chars`, and the preview only when
it equals the body.  The body has at most `max_indexed_chars` codepoints for
filesystem and JSONL documents; a StackExchange body either respects that
bound or — on the empty-body path that adopts the title untruncated
(ingest.rs:411) — equals the document's title.  (The original claim's
unconditional no-trailing-space and unconditional body bound are both
refuted by the counterexample.) -/
theorem ingest_body_preview_shape :
    (∀ (n : Nat) (src rel t0 bsrc fp : String) (d : RawDocM),
      mkFsDoc n src rel t0 bsrc fp = some d →
        d.body.toList.length ≤ n
        ∧ hasTwoSpaces d.body.toList = false
        ∧ headSpace d.body.toList = false
        ∧ (lastSpace d.body.toList = false ∨ d.body.toList.length = n)
        ∧ d.preview.toList.length ≤ 283
        ∧ hasTwoSpaces d.preview.toList = false
        ∧ headSpace d.preview.toList = false
        ∧ (d.body.toList.length ≤ 280 → d.preview = d.body)
        ∧ (280 < d.body.toList.length →
            d.preview.toList = d.body.toList.take 280 ++ ['.', '.', '.'])
        ∧ (lastSpace d.preview.toList = false ∨ d.preview = d.body))
    ∧ (∀ (n : Nat) (src path : String) (ln : Nat) (idv tv bv uv : Option String)
        (hash : String) (d : RawDocM),
      mkJsonlDoc n src path ln idv tv bv uv hash = some d →
        d.body.toList.length ≤ n
        ∧ hasTwoSpaces d.body.toList = false
        ∧ headSpace d.body.toList = false
        ∧ (lastSpace d.body.toList = false ∨ d.body.toList.length = n)
        ∧ d.preview.toList.length ≤ 283
        ∧ hasTwoSpaces d.preview.toList = false
        ∧ headSpace d.preview.toList = false
        ∧ (d.body.toList.length ≤ 280 → d.preview = d.body)
        ∧ (280 < d.body.toList.length →
            d.preview.toList = d.body.toList.take 280 ++ ['.', '.', '.'])
        ∧ (lastSpace d.preview.toList = false ∨ d.preview = d.body))
    ∧ (∀ (h : String → String) (n : Nat) (src path : String)
        (attrs : List (String × String)) (d : RawDocM),
      process_stackexchange_row h n src path attrs = some d →
        (d.body.toList.length ≤ n ∨ d.body = d.title)
        ∧ hasTwoSpaces d.body.toList = false
        ∧ headSpace d.body.toList = false
        ∧ (lastSpace d.body.toList = false ∨ d.body.toList.length = n)
        ∧ d.preview.toList.length ≤ 283
        ∧ hasTwoSpaces d.preview.toList = false
        ∧ headSpace d.preview.toList = false
        ∧ (d.body.toList.length ≤ 280 → d.preview = d.body)
        ∧ (280 < d.body.toList.length →
            d.preview.toList = d.body.toList.take 280 ++ ['.', '.', '.'])
        ∧ (lastSpace d.preview.toList = false ∨ d.preview = d.body)) := by
  refine ⟨?_, ?_, ?_⟩
  · intro n src rel t0 bsrc fp d hd
    unfold mkFsDoc at hd
    dsimp only at hd
    split at hd
    · exact absurd hd (by simp)
    · rw [Option.some.injEq] at hd
      subst hd
      exact bodyPreview_shape bsrc n
  · intro n src path ln idv tv bv uv hash d hd
    unfold mkJsonlDoc at hd
    dsimp only at hd
    split at hd
    · exact absurd hd (by simp)
    · rw [Option.some.injEq] at hd
      subst hd
      exact bodyPreview_shape (bv.getD "") n
  · intro h n src path attrs d hd
    rcases hattrs : seRowAttrs attrs with ⟨id?, title?, body?, lastAct?⟩
    unfold process_stackexchange_row at hd
    rw [hattrs] at hd
    simp only at hd
    cases id? with
    | none => exact absurd hd (by simp)
    | some id =>
      simp only at hd
      set bodyRaw := body?.getD "" with hbodyRaw
      set bodyPlain := (if bodyRaw = "" then "" else h bodyRaw) with hbodyPlain
      set body := truncate_chars (normalize_whitespace bodyPlain) n with hbody
      by_cases hskip : body = "" ∧ strTrim (title?.getD "") = ""
      · rw [if_pos hskip] at hd
        exact absurd hd (by simp)
      · rw [if_neg hskip] at hd
        rw [Option.some.injEq] at hd
        subst hd
        dsimp only
        by_cases hbe : body = ""
        · have htne : strTrim (title?.getD "") ≠ "" := fun hte => hskip ⟨hbe, hte⟩
          cases title? with
          | none => exact absurd (by decide) htne
          | some t =>
            have htne2 : strTrim t ≠ "" := by simpa using htne
            have hnne : normalize_whitespace t ≠ "" := normalize_ne_empty_of_trim htne2
            simp only [Option.getD_some]
            rw [if_pos hbe, if_neg hnne]
            obtain ⟨r1, r2, r3, r4, r5, r6, r7, r8, r9⟩ := normPreview_shape t
            exact ⟨Or.inr rfl, r1, r2, Or.inl r3, r4, r5, r6, r7, r8, Or.inl r9⟩
        · rw [if_neg hbe, hbody]
          obtain ⟨q1, q2, q3, q4, q5, q6, q7, q8, q9, q10⟩ :=
            bodyPreview_shape bodyPlain n
          exact ⟨Or.inl q1, q2, q3, q4, q5, q6, q7, q8, q9, q10⟩

/-- Closed instances of C4's amended theorem: a JSONL line (no truncation at
`n = 8`), and the StackExchange adoption row `<row Id="1" Title="abc"/>` at
`n = 1` whose body is the adopted title. -/
theorem ingest_body_preview_shape_witness :
    (jdocW.body.toList.length ≤ 8
      ∧ (lastSpace jdocW.body.toList = false ∨ jdocW.body.toList.length = 8))
    ∧ (sdocW.body.toList.length ≤ 1 ∨ sdocW.body = sdocW.title) :=
  ⟨⟨(ingest_body_preview_shape.2.1 8 "news" "d.jsonl" 1 (some "1") (some "T")
      (some "a  b c") none "fp" jdocW (by decide)).1,
    (ingest_body_preview_shape.2.1 8 "news" "d.jsonl" 1 (some "1") (some "T")
      (some "a  b c") none "fp" jdocW (by decide)).2.2.2.1⟩,
   (ingest_body_preview_shape.2.2 (fun s => s) 1 "se" "Posts.xml"
      [("Id", "1"), ("Title", "abc")] sdocW (by decide)).1⟩

/-- C4 counterexamples to the original claim: (i) with `max_indexed_chars =
2` the JSONL line with body `"a b"` is ingested with body `"a "` — a
trailing space; (ii) with `max_indexed_chars = 1` the StackExchange row
`<row Id="1" Title="abc"/>` (empty body) adopts the untruncated title: its
body `"abc"` has 3 > 1 codepoints, violating the unconditional body
bound. -/
theorem ingest_body_bounds_cex :
    ((mkJsonlDoc 2 "news" "data.jsonl" 1 (some "1") (some "T") (some "a b") none "fp").map
        RawDocM.body = some "a "
      ∧ lastSpace "a ".toList = true)
    ∧ ((process_stackexchange_row (fun s => s) 1 "se" "Posts.xml"
          [("Id", "1"), ("Title", "abc")]).map RawDocM.body = some "abc"
      ∧ 1 < "abc".toList.length) :=
  ⟨⟨by decide, by decide⟩, ⟨by decide, by decide⟩⟩

/-- C6 (amended): for every emitted StackExchange row whose `Title`
attribute is absent, the title is the whitespace-normalized 80-codepoint
preview of the (normalized, truncated) body — never the default
`"Post <id>"`, which only serves rows whose present title normalizes to
empty; and whenever that body is empty, the emitted body equals the title. -/
theorem se_title_inference (h : String → String) (maxChars : Nat)
    (sourceName pathStr : String) (attrs : List (String × String)) (doc : RawDocM)
    (hemit : process_stackexchange_row h maxChars sourceName pathStr attrs = some doc) :
    ((seRowAttrs attrs).2.1 = none →
      doc.title = normalize_whitespace (preview_from_text (seBodyOf h maxChars attrs) 80))
    ∧ (seBodyOf h maxChars attrs = "" → doc.body = doc.title) := by
  rcases hattrs : seRowAttrs attrs with ⟨id?, title?, body?, lastAct?⟩
  unfold process_stackexchange_row at hemit
  unfold seBodyOf
  rw [hattrs] at hemit ⊢
  simp only at hemit ⊢
  cases id? with
  | none => exact absurd hemit (by simp)
  | some id =>
    simp only at hemit
    set bodyRaw := body?.getD "" with hbodyRaw
    set bodyPlain := (if bodyRaw = "" then "" else h bodyRaw) with hbodyPlain
    set body := truncate_chars (normalize_whitespace bodyPlain) maxChars with hbody
    by_cases hskip : body = "" ∧ strTrim (title?.getD "") = ""
    · rw [if_pos hskip] at hemit
      exact absurd hemit (by simp)
    · rw [if_neg hskip] at hemit
      simp only [Option.some.injEq] at hemit
      subst hemit
      constructor
      · intro htitle
        subst htitle
        simp only [Option.getD_none] at hskip
        simp only [Option.getD_none]
        have hbne : body ≠ "" := by
          intro hb
          exact hskip ⟨hb, by decide⟩
        have hbl : body.toList ≠ [] := by
          intro hb
          apply hbne
          apply String.ext
          simpa using hb
        have hbh : headIsWs body.toList = false := by
          have hbt : body.toList
              = truncateCharsL (normalizeWhitespaceL bodyPlain.toList) maxChars := rfl
          rw [hbt]
          exact headIsWs_of_pre (truncateCharsL_pre _ _)
            (normalizeWhitespaceL_shape bodyPlain.toList).2.1
        have hinfer : infer_title_from_body body id = preview_from_text body 80 := by
          unfold infer_title_from_body
          rw [if_neg hbne]
        simp only [hinfer]
        have hpl : (preview_from_text body 80).toList = previewFromTextL body.toList 80 := rfl
        have hpne : previewFromTextL body.toList 80 ≠ [] :=
          previewFromTextL_ne_nil hbl (by decide)
        have hph : headIsWs (previewFromTextL body.toList 80) = false :=
          headIsWs_previewFromTextL 80 hbh
        have htne : normalize_whitespace (preview_from_text body 80) ≠ "" := by
          unfold normalize_whitespace
          apply mk_ne_empty_of_ne_nil
          rw [hpl]
          exact normalizeWhitespaceL_ne_nil hpne hph
        simp only [if_neg htne]
      · intro hbe
        rw [hbe]
        simp

/-- Closed instance of C6's amended theorem: the row
`<row Id="1" Body="hello"/>` (with `html2text` acting as identity on plain
text) is emitted with title `"hello"`, the body preview — not `"Post 1"`. -/
theorem se_title_inference_witness :
    process_stackexchange_row (fun s => s) 200000 "se" "Posts.xml"
        [("Id", "1"), ("Body", "hello")] = some
      { doc_id := "stackexchange:se:1", source := "se", title := "hello", body := "hello"
        preview := "hello", location := "Posts.xml#1", url := none, fingerprint := ":5" }
    ∧ ((seRowAttrs [("Id", "1"), ("Body", "hello")]).2.1 = none →
        ({ doc_id := "stackexchange:se:1", source := "se", title := "hello", body := "hello"
           preview := "hello", location := "Posts.xml#1", url := none,
           fingerprint := ":5" } : RawDocM).title
          = normalize_whitespace
              (preview_from_text (seBodyOf (fun s => s) 200000 [("Id", "1"), ("Body", "hello")])
                80)) :=
  ⟨by decide,
    (se_title_inference (fun s => s) 200000 "se" "Posts.xml" [("Id", "1"), ("Body", "hello")]
      _ (by decide)).1⟩

/-- C6 counterexample: that same emitted row has `Title` absent yet title
`"hello" ≠ "Post 1"`, refuting the claim's "default title" clause. -/
theorem se_absent_title_cex :
    (seRowAttrs [("Id", "1"), ("Body", "hello")]).2.1 = none
    ∧ (process_stackexchange_row (fun s => s) 200000 "se" "Posts.xml"
        [("Id", "1"), ("Body", "hello")]).map RawDocM.title = some "hello"
    ∧ ("hello" : String) ≠ "Post 1" :=
  ⟨by decide, by decide, by decide⟩

/-! ## C7: empty queries -/

/-- An engine search on a blank query returns the empty result at once. -/
theorem searchEngine_blank_query (e : LocalEngine) (q : String) (limit offset : Nat)
    (filter : Option String) (hq : strTrim q = "") :
    searchEngineSearch e q limit offset filter = .ok ⟨0, []⟩ := by
  unfold searchEngineSearch
  rw [hq]
  simp

/-- C7: a blank or missing query yields the empty successful result from the
engine, and the search endpoint answers `{total_hits := 0, hits := [],
answer := none}` for it, whatever the limit, offset, source filter, answer
flag and configured integrations. -/
theorem empty_query_empty_result (e : LocalEngine) (q : String) (limit offset : Nat)
    (filter : Option String) (st : ServerState) (p : SearchParams)
    (hq : strTrim q = "") (hpq : strTrim (p.q.getD "") = "") :
    searchEngineSearch e q limit offset filter = .ok ⟨0, []⟩
    ∧ search_handler st p = .ok ⟨0, [], none⟩ := by
  refine ⟨searchEngine_blank_query e q limit offset filter hq, ?_⟩
  have hloc : ∀ (l o : Nat) (f : Option String),
      searchEngineSearch st.engine (p.q.getD "") l o f = .ok ⟨0, []⟩ :=
    fun l o f => searchEngine_blank_query st.engine _ l o f hpq
  have hkiw : ∀ (ks : KiwixState) (f : Option String) (l : Nat),
      kiwixSearch ks (p.q.getD "") f l = (0, []) := by
    intro ks f l
    unfold kiwixSearch
    rw [hpq]
    simp
  have hrer : rerank_hits (p.q.getD "") [] = [] := by
    simp [rerank_hits]
  have hlp : localPartOf st p = .ok (0, []) := by
    unfold localPartOf
    rw [hloc]
    split <;> rfl
  have hkp : kiwixPartOf st p = (0, []) := by
    unfold kiwixPartOf
    cases st.kiwix with
    | none => rfl
    | some ks => simp [hkiw]
  have hpag : pagedHitsOf st p [] = [] := by
    unfold pagedHitsOf
    rw [hkp]
    simp [hrer]
  have hans : answerPartOf st p [] = .ok none := by
    unfold answerPartOf
    split
    · cases st.ollama with
      | none => rfl
      | some os => simp [synthesizeAnswer, buildContext, buildContext.go, Except.map]
    · rfl
  unfold search_handler
  rw [hlp]
  dsimp only
  rw [hpag, hans]
  dsimp only
  rw [hkp]
  rfl

/-- Closed instance of C7 on the trivial fixtures, with a blank query and
`answer=true`. -/
theorem empty_query_empty_result_witness :
    searchEngineSearch engineW " \t " 7 3 (some "docs") = .ok ⟨0, []⟩
    ∧ search_handler serverW paramsBlank = .ok ⟨0, [], none⟩ :=
  empty_query_empty_result engineW " \t " 7 3 (some "docs") serverW paramsBlank
    (by decide) (by decide)

/-! ## C3/C8: kiwix aggregation and filtering lemmas -/

/-- One accumulation step, described by the per-collection outcome
functions. -/
theorem kiwixStep_eq (ks : KiwixState) (acc : Nat × List SearchHitM) (c : KiwixCollection) :
    kiwixStep ks acc c = (acc.1 + collTotal ks c, acc.2 ++ collHits ks c) := by
  unfold kiwixStep collTotal collHits
  cases hf : ks.fetch c.id with
  | none => simp
  | some v => cases v with | mk ht rows => simp

/-- The whole fold, described by the per-collection outcome functions. -/
theorem kiwix_fold_eq (ks : KiwixState) :
    ∀ (selected : List KiwixCollection) (t0 : Nat) (hs0 : List SearchHitM),
      selected.foldl (kiwixStep ks) (t0, hs0)
        = (t0 + (selected.map (collTotal ks)).sum, hs0 ++ selected.flatMap (collHits ks)) := by
  intro selected
  induction selected with
  | nil => intro t0 hs0; simp
  | cons c rest ih =>
    intro t0 hs0
    rw [List.foldl_cons, kiwixStep_eq, ih]
    simp [Nat.add_assoc]

/-- Every hit built for a collection carries its `kiwix:<id>` source. -/
theorem mem_buildKiwixHits_source {h2t : String → String} {uj : String → Option String}
    {c : KiwixCollection} :
    ∀ {idx : Nat} {rows : List KiwixRow} {h : SearchHitM},
      h ∈ buildKiwixHits h2t uj c idx rows → h.source = "kiwix:" ++ c.id := by
  intro idx rows
  induction rows generalizing idx with
  | nil => intro h hm; simp [buildKiwixHits] at hm
  | cons row rest ih =>
    intro h hm
    unfold buildKiwixHits at hm
    split at hm
    · exact ih hm
    · rcases List.mem_cons.mp hm with hh | hh
      · subst hh; rfl
      · exact ih hh

/-- Every hit a collection outcome yields carries its `kiwix:<id>` source. -/
theorem mem_collHits_source {ks : KiwixState} {c : KiwixCollection} {h : SearchHitM}
    (hm : h ∈ collHits ks c) : h.source = "kiwix:" ++ c.id := by
  unfold collHits at hm
  split at hm
  · exact mem_buildKiwixHits_source hm
  · simp at hm

/-- Every hit of a kiwix search comes from one of the filtered collections
and carries its source. -/
theorem mem_kiwixSearch_source {ks : KiwixState} {q : String} {sf : Option String}
    {limit : Nat} {h : SearchHitM} (hm : h ∈ (kiwixSearch ks q sf limit).2) :
    ∃ c ∈ filtered_collections ks sf, h.source = "kiwix:" ++ c.id := by
  unfold kiwixSearch at hm
  split at hm
  · simp at hm
  · dsimp only at hm
    split at hm
    · simp at hm
    · have hp := (List.perm_insertionSort hitDescLe _).mem_iff.mp hm
      rw [kiwix_fold_eq] at hp
      simp only [Nat.zero_add, List.nil_append] at hp
      obtain ⟨c, hc, hch⟩ := List.mem_flatMap.mp hp
      exact ⟨c, hc, mem_collHits_source hch⟩

/-- A string starting with `"kiwix:"` is nonempty. -/
theorem kiwixPre_ne_empty (Y : String) : ("kiwix:" ++ Y : String) ≠ "" := by
  intro hc
  have := congrArg String.toList hc
  rw [show ("kiwix:" ++ Y : String).toList = "kiwix:".toList ++ Y.toList from
    String.data_append _ _] at this
  simp at this

/-- ASCII-case-insensitive equality preserves length. -/
theorem eqIgnoreAsciiCase_length {a b : String} (h : eqIgnoreAsciiCase a b = true) :
    a.toList.length = b.toList.length := by
  unfold eqIgnoreAsciiCase at h
  have := eq_of_beq h
  have hl := congrArg List.length this
  simpa using hl

/-- A `"kiwix:<id>"` filter is never the bare `"kiwix"` filter. -/
theorem kiwixPre_not_bare (Y : String) :
    eqIgnoreAsciiCase ("kiwix:" ++ Y) "kiwix" = false := by
  cases he : eqIgnoreAsciiCase ("kiwix:" ++ Y) "kiwix" with
  | false => rfl
  | true =>
    have := eqIgnoreAsciiCase_length he
    rw [show ("kiwix:" ++ Y : String).toList = "kiwix:".toList ++ Y.toList from
      String.data_append _ _] at this
    simp at this

/-- A collection passing the `"kiwix:<id>"` filter has exactly that id. -/
theorem mem_filtered_strip {ks : KiwixState} {Y : String} {c : KiwixCollection}
    (hX : strTrim ("kiwix:" ++ Y) = "kiwix:" ++ Y)
    (hc : c ∈ filtered_collections ks (some ("kiwix:" ++ Y))) : c.id = Y := by
  unfold filtered_collections at hc
  rw [Option.map_some', hX] at hc
  dsimp only at hc
  rw [if_neg (kiwixPre_ne_empty Y), kiwixPre_not_bare Y] at hc
  simp only [Bool.false_eq_true, if_false] at hc
  have hpre : "kiwix:".toList.isPrefixOf ("kiwix:" ++ Y : String).toList = true := by
    rw [show ("kiwix:" ++ Y : String).toList = "kiwix:".toList ++ Y.toList from
      String.data_append _ _]
    exact List.isPrefixOf_iff_prefix.mpr (List.prefix_append _ _)
  rw [hpre] at hc
  simp only [if_true] at hc
  have hdrop : (⟨("kiwix:" ++ Y : String).toList.drop 6⟩ : String) = Y := by
    rw [show ("kiwix:" ++ Y : String).toList = "kiwix:".toList ++ Y.toList from
      String.data_append _ _]
    rw [List.drop_append_of_le_length (by decide)]
    simp
  rw [hdrop] at hc
  have := (List.mem_filter.mp hc).2
  exact eq_of_beq this

/-- Re-ranking only rescores and reorders: every output hit keeps the source
of some input hit. -/
theorem mem_rerank_hits {q : String} {l : List SearchHitM} {h : SearchHitM}
    (hm : h ∈ rerank_hits q l) : ∃ h₀ ∈ l, h.source = h₀.source := by
  unfold rerank_hits at hm
  dsimp only at hm
  split at hm
  · exact ⟨h, hm, rfl⟩
  · split at hm
    · exact ⟨h, hm, rfl⟩
    · have hp := (List.perm_insertionSort rerankLe _).mem_iff.mp hm
      obtain ⟨h₀, hh₀, heq⟩ := List.mem_map.mp hp
      exact ⟨h₀, hh₀, by rw [← heq]⟩

/-- A local search with a (trimmed, nonempty) source filter only returns hits
whose stored source equals the filter. -/
theorem localSearch_filter_sources {e : LocalEngine} {q f : String} {limit offset : Nat}
    {r : SearchResultM} (hf : strTrim f = f) (hne : f ≠ "")
    (hok : searchEngineSearch e q limit offset (some f) = .ok r) :
    ∀ h ∈ r.hits, h.source = f := by
  unfold searchEngineSearch at hok
  dsimp only at hok
  split at hok
  · cases hok
    intro h hm
    simp at hm
  · split at hok
    · cases hok
    · rw [Option.map_some', hf] at hok
      dsimp only at hok
      rw [if_neg hne] at hok
      dsimp only at hok
      cases hok
      intro h hm
      obtain ⟨d, hd, hmat⟩ := List.mem_map.mp hm
      have hdm : d ∈ List.filter _ e.docs :=
        (List.perm_insertionSort (storedDescLe e (strTrim q)) _).mem_iff.mp
          (List.mem_of_mem_drop (List.mem_of_mem_take hd))
      have hpred := (List.mem_filter.mp hdm).2
      rw [Bool.and_eq_true] at hpred
      have hsrc : d.source = f := eq_of_beq hpred.2
      rw [← hmat]
      exact hsrc

/-- C3: the search endpoint's source filter is respected.  When the `source`
parameter is a (trimmed, nonempty) value `X`: if `X` is not a kiwix filter,
every returned hit has `source = X`; if `X` equals `"kiwix"` up to ASCII
case, every returned hit's source starts with `"kiwix:"`; if
`X = "kiwix:Y"`, every returned hit has `source = "kiwix:Y"`. -/
theorem source_filter_respected (st : ServerState) (p : SearchParams)
    (resp : SearchResponseM) (X : String) (hsrc : p.source = some X)
    (hX : strTrim X = X) (hne : X ≠ "")
    (hok : search_handler st p = .ok resp) :
    (is_kiwix_filter X = false → ∀ h ∈ resp.hits, h.source = X)
    ∧ (eqIgnoreAsciiCase X "kiwix" = true →
        ∀ h ∈ resp.hits, "kiwix:".toList.isPrefixOf h.source.toList = true)
    ∧ (∀ Y, X = "kiwix:" ++ Y → ∀ h ∈ resp.hits, h.source = "kiwix:" ++ Y) := by
  have hsf : sourceFilterOf p = some X := by
    unfold sourceFilterOf
    rw [hsrc, Option.map_some', hX]
    simp [hne]
  unfold search_handler at hok
  cases hlp : localPartOf st p with
  | error e => rw [hlp] at hok; cases hok
  | ok v =>
    obtain ⟨lt, lh⟩ := v
    rw [hlp] at hok
    dsimp only at hok
    cases hap : answerPartOf st p (pagedHitsOf st p lh) with
    | error e => rw [hap] at hok; cases hok
    | ok ans =>
      rw [hap] at hok
      dsimp only at hok
      cases hok
      by_cases hkf : is_kiwix_filter X = true
      · -- kiwix filter: local part is the trivial pair, hits come from kiwix.
        have hlf : localFilterOf p = none := by
          unfold localFilterOf
          rw [hsf]
          simp [hkf]
        have hlp0 : localPartOf st p = .ok (0, []) := by
          unfold localPartOf
          rw [hsf, hlf]
          rfl
        have hlh : lh = [] := by
          rw [hlp0] at hlp
          cases hlp
          rfl
        subst hlh
        have hkmem : ∀ h₀ ∈ (kiwixPartOf st p).2,
            ∃ ks, st.kiwix = some ks ∧
              ∃ c ∈ filtered_collections ks (some X), h₀.source = "kiwix:" ++ c.id := by
          intro h₀ hm
          unfold kiwixPartOf at hm
          cases hk : st.kiwix with
          | none => rw [hk] at hm; simp at hm
          | some ks =>
            rw [hk] at hm
            dsimp only at hm
            rw [hsf] at hm
            simp only [Option.isNone_some, hkf, Bool.false_or, if_true] at hm
            refine ⟨ks, rfl, ?_⟩
            exact mem_kiwixSearch_source hm
        have hmem : ∀ h ∈ pagedHitsOf st p [],
            ∃ ks, st.kiwix = some ks ∧
              ∃ c ∈ filtered_collections ks (some X), h.source = "kiwix:" ++ c.id := by
          intro h hm
          unfold pagedHitsOf at hm
          obtain ⟨h₀, hh₀, hs⟩ :=
            mem_rerank_hits (List.mem_of_mem_drop (List.mem_of_mem_take hm))
          rw [List.nil_append] at hh₀
          obtain ⟨ks, hks, c, hc, hcs⟩ := hkmem h₀ hh₀
          refine ⟨ks, hks, c, hc, ?_⟩
          rw [hs, hcs]
        refine ⟨fun h1 => ?_, ?_, ?_⟩
        · rw [h1] at hkf
          cases hkf
        · intro _ h hm
          obtain ⟨ks, _, c, _, hcs⟩ := hmem h hm
          rw [hcs]
          rw [show ("kiwix:" ++ c.id : String).toList = "kiwix:".toList ++ c.id.toList from
            String.data_append _ _]
          exact List.isPrefixOf_iff_prefix.mpr (List.prefix_append _ _)
        · intro Y hXY h hm
          obtain ⟨ks, _, c, hc, hcs⟩ := hmem h hm
          subst hXY
          rw [hcs, mem_filtered_strip hX hc]
      · -- local filter: kiwix part is the trivial pair, hits come from the engine.
        have hkff : is_kiwix_filter X = false := by
          cases hv : is_kiwix_filter X with
          | false => rfl
          | true => exact absurd hv hkf
        have hlf : localFilterOf p = some X := by
          unfold localFilterOf
          rw [hsf]
          simp [hkff]
        have hkp0 : kiwixPartOf st p = (0, []) := by
          unfold kiwixPartOf
          cases st.kiwix with
          | none => rfl
          | some ks =>
            dsimp only
            rw [hsf]
            simp [hkff]
        refine ⟨?_, ?_, ?_⟩
        · intro _ h hm
          have hlpl := hlp
          unfold localPartOf at hlpl
          rw [hsf, hlf] at hlpl
          simp only [Option.isNone_some, Option.isSome_some, Bool.or_true, if_true] at hlpl
          cases hres : searchEngineSearch st.engine (p.q.getD "")
              (max (fetchCountOf st p) 1) 0 (some X) with
          | error e =>
            rw [hres] at hlpl
            simp [Except.map] at hlpl
          | ok r =>
            rw [hres] at hlpl
            simp only [Except.map, Except.ok.injEq] at hlpl
            have hlh : lh = r.hits := ((Prod.mk.inj hlpl).2).symm
            unfold pagedHitsOf at hm
            rw [hkp0] at hm
            obtain ⟨h₀, hh₀, hs⟩ :=
              mem_rerank_hits (List.mem_of_mem_drop (List.mem_of_mem_take hm))
            rw [List.append_nil, hlh] at hh₀
            rw [hs]
            exact localSearch_filter_sources hX hne hres h₀ hh₀
        · intro heq
          exact absurd (by simp [is_kiwix_filter, heq]) hkf
        · intro Y hXY
          subst hXY
          have hpre : is_kiwix_filter ("kiwix:" ++ Y) = true := by
            unfold is_kiwix_filter
            rw [show ("kiwix:" ++ Y : String).toList = "kiwix:".toList ++ Y.toList from
              String.data_append _ _]
            simp [List.isPrefixOf_iff_prefix.mpr (List.prefix_append _ _)]
          exact absurd hpre hkf

/-- Closed instance of C3 on the kiwix fixtures: filter `"kiwix:wikipedia"`
only yields hits with that exact source. -/
theorem source_filter_respected_witness :
    search_handler serverKW paramsKW = .ok respKW
    ∧ (∀ h ∈ respKW.hits, h.source = "kiwix:" ++ "wikipedia") :=
  ⟨by decide,
    (source_filter_respected serverKW paramsKW respKW "kiwix:wikipedia" rfl (by decide)
      (by decide) (by decide)).2.2 "wikipedia" rfl⟩

/-! ## C8: per-collection failure isolation in the kiwix client -/

/-- Failed collections contribute nothing to the total, so summing over the
succeeding ones is summing over all. -/
theorem sum_collTotal_filter (ks : KiwixState) (l : List KiwixCollection) :
    ((l.filter fun c => (ks.fetch c.id).isSome).map (collTotal ks)).sum
      = (l.map (collTotal ks)).sum := by
  induction l with
  | nil => rfl
  | cons c rest ih =>
    rw [List.filter_cons]
    cases hf : ks.fetch c.id with
    | some v =>
      simp only [Option.isSome_some, if_true, List.map_cons, List.sum_cons]
      rw [ih]
    | none =>
      have hz : collTotal ks c = 0 := by unfold collTotal; rw [hf]
      simp only [Option.isSome_none, Bool.false_eq_true, if_false, List.map_cons,
        List.sum_cons, hz, ih]
      omega

/-- Failed collections contribute no hits, so flat-mapping over the
succeeding ones is flat-mapping over all. -/
theorem flatMap_collHits_filter (ks : KiwixState) (l : List KiwixCollection) :
    (l.filter fun c => (ks.fetch c.id).isSome).flatMap (collHits ks)
      = l.flatMap (collHits ks) := by
  induction l with
  | nil => rfl
  | cons c rest ih =>
    rw [List.filter_cons]
    cases hf : ks.fetch c.id with
    | some v =>
      simp only [Option.isSome_some, if_true, List.flatMap_cons]
      rw [ih]
    | none =>
      have hz : collHits ks c = [] := by unfold collHits; rw [hf]
      simp only [Option.isSome_none, Bool.false_eq_true, if_false, List.flatMap_cons, hz,
        List.nil_append, ih]

/-- C8: `KiwixClient::search` never fails as a whole.  For every set of
per-collection outcomes (with a non-blank query and nonzero limit): the
total is the sum of the succeeding collections' totals, the hits are exactly
(a permutation of) the union of the succeeding collections' hits, and they
are sorted by descending score. -/
theorem kiwix_failure_isolation (ks : KiwixState) (q : String) (sf : Option String)
    (limit : Nat) (hq : strTrim q ≠ "") (hl : limit ≠ 0) :
    (kiwixSearch ks q sf limit).1
      = (((filtered_collections ks sf).filter fun c => (ks.fetch c.id).isSome).map
          (collTotal ks)).sum
    ∧ (kiwixSearch ks q sf limit).2.Perm
        (((filtered_collections ks sf).filter fun c => (ks.fetch c.id).isSome).flatMap
          (collHits ks))
    ∧ (kiwixSearch ks q sf limit).2.Pairwise hitDescLe := by
  unfold kiwixSearch
  rw [if_neg (by simp [hq, hl])]
  dsimp only
  split
  · rename_i hsel
    have hnil : filtered_collections ks sf = [] := List.isEmpty_iff.mp hsel
    rw [hnil]
    exact ⟨rfl, List.Perm.refl _, List.Pairwise.nil⟩
  · rw [kiwix_fold_eq]
    dsimp only
    refine ⟨?_, ?_, ?_⟩
    · rw [sum_collTotal_filter]
      omega
    · rw [flatMap_collHits_filter]
      have hperm := List.perm_insertionSort hitDescLe
        ([] ++ (filtered_collections ks sf).flatMap (collHits ks))
      rw [List.nil_append] at hperm
      exact hperm
    · exact List.sorted_insertionSort hitDescLe _

/-- Closed instance of C8 on the two-collection fixture (gutenberg's request
fails, wikipedia's succeeds). -/
theorem kiwix_failure_isolation_witness :
    (kiwixSearch kiwixW "books" none 10).1
      = (((filtered_collections kiwixW none).filter
          fun c => (kiwixW.fetch c.id).isSome).map (collTotal kiwixW)).sum
    ∧ (kiwixSearch kiwixW "books" none 10).2.Perm
        (((filtered_collections kiwixW none).filter
          fun c => (kiwixW.fetch c.id).isSome).flatMap (collHits kiwixW))
    ∧ (kiwixSearch kiwixW "books" none 10).2.Pairwise hitDescLe :=
  kiwix_failure_isolation kiwixW "books" none 10 (by decide) (by decide)

/-! ## C1/C2: manifest-map and indexer-fold lemmas -/

/-- Insertion then lookup of the same key. -/
theorem mLookup_mInsert_self (k v : String) : ∀ m, mLookup k (mInsert k v m) = some v := by
  intro m
  induction m with
  | nil => simp [mInsert, mLookup]
  | cons kv rest ih =>
    obtain ⟨k', v'⟩ := kv
    unfold mInsert
    split
    · simp [mLookup]
    · split
      · simp [mLookup]
      · rename_i hlt heq
        have hne : k ≠ k' := heq
        simp [mLookup, hne, ih]

/-- Insertion then lookup of a different key. -/
theorem mLookup_mInsert_ne {k k' : String} (v : String) (hne : k ≠ k') :
    ∀ m, mLookup k (mInsert k' v m) = mLookup k m := by
  intro m
  induction m with
  | nil => simp [mInsert, mLookup, hne]
  | cons kv rest ih =>
    obtain ⟨k₀, v₀⟩ := kv
    unfold mInsert
    split
    · simp [mLookup, hne]
    · split
      · rename_i hlt heq
        subst heq
        simp [mLookup, hne]
      · by_cases hk : k = k₀
        · subst hk
          simp [mLookup]
        · simp [mLookup, hk, ih]

/-- Keys after insertion. -/
theorem mem_mKeys_mInsert {k₁ k v : String} : ∀ {m : ManifestMap},
    k₁ ∈ mKeys (mInsert k v m) → k₁ = k ∨ k₁ ∈ mKeys m := by
  intro m
  induction m with
  | nil => intro h; simpa [mInsert, mKeys] using h
  | cons kv rest ih =>
    obtain ⟨k₀, v₀⟩ := kv
    intro h
    unfold mInsert at h
    split at h
    · simpa [mKeys] using h
    · split at h
      · rename_i hlt heq
        subst heq
        rcases (by simpa [mKeys] using h : k₁ = k ∨ k₁ ∈ mKeys rest) with hh | hh
        · exact Or.inl hh
        · refine Or.inr ?_
          simp only [mKeys, List.map_cons, List.mem_cons]
          exact Or.inr hh
      · rcases (by simpa [mKeys] using h : k₁ = k₀ ∨ k₁ ∈ mKeys (mInsert k v rest)) with hh | hh
        · refine Or.inr ?_
          simp only [mKeys, List.map_cons, List.mem_cons]
          exact Or.inl hh
        · rcases ih hh with h2 | h2
          · exact Or.inl h2
          · refine Or.inr ?_
            simp only [mKeys, List.map_cons, List.mem_cons]
            exact Or.inr h2

/-- The per-document fold accumulates exactly the emitted fingerprints into
the new manifest, whichever branch each document takes (the skip branch
re-inserts the old fingerprint, which the guard equates with the
document's). -/
theorem foldl_stepDoc_newDocs (oldM : ManifestMap) (rb : Bool) :
    ∀ (docs : List RawDocM) (st : FoldSt),
      (docs.foldl (stepDoc oldM rb) st).newDocs
        = docs.foldl (fun m d => mInsert d.doc_id d.fingerprint m) st.newDocs := by
  intro docs
  induction docs with
  | nil => intro st; rfl
  | cons d rest ih =>
    intro st
    rw [List.foldl_cons, List.foldl_cons, ih]
    congr 1
    unfold stepDoc
    cases hlk : mLookup d.doc_id oldM with
    | none => rfl
    | some oldFp =>
      dsimp only
      split
      · rename_i hguard
        rw [hguard.2]
      · rfl

/-- The per-document fold marks exactly the emitted ids as seen. -/
theorem foldl_stepDoc_seen (oldM : ManifestMap) (rb : Bool) :
    ∀ (docs : List RawDocM) (st : FoldSt),
      (docs.foldl (stepDoc oldM rb) st).seen
        = (docs.map RawDocM.doc_id).reverse ++ st.seen := by
  intro docs
  induction docs with
  | nil => intro st; simp
  | cons d rest ih =>
    intro st
    rw [List.foldl_cons, ih]
    have hseen : (stepDoc oldM rb st d).seen = d.doc_id :: st.seen := by
      unfold stepDoc
      cases mLookup d.doc_id oldM with
      | none => rfl
      | some oldFp =>
        dsimp only
        split
        · rfl
        · rfl
    rw [hseen]
    simp

/-- When every document is unchanged, the fold indexes nothing, issues no
writer operation, and counts everything as unchanged. -/
theorem foldl_stepDoc_all_skip (oldM : ManifestMap) :
    ∀ (docs : List RawDocM) (st : FoldSt),
      (∀ d ∈ docs, mLookup d.doc_id oldM = some d.fingerprint) →
      (docs.foldl (stepDoc oldM false) st).indexed = st.indexed
      ∧ (docs.foldl (stepDoc oldM false) st).ops = st.ops
      ∧ (docs.foldl (stepDoc oldM false) st).unchanged = st.unchanged + docs.length := by
  intro docs
  induction docs with
  | nil => intro st _; exact ⟨rfl, rfl, rfl⟩
  | cons d rest ih =>
    intro st hall
    have hd := hall d (List.mem_cons_self d rest)
    have hstep : stepDoc oldM false st d =
        { st with
          unchanged := st.unchanged + 1
          seen := d.doc_id :: st.seen
          newDocs := mInsert d.doc_id d.fingerprint st.newDocs } := by
      unfold stepDoc
      rw [hd]
      dsimp only
      rw [if_pos ⟨by simp, rfl⟩]
    rw [List.foldl_cons, hstep]
    obtain ⟨h1, h2, h3⟩ := ih _ (fun d' hd' => hall d' (List.mem_cons_of_mem d hd'))
    refine ⟨h1, h2, ?_⟩
    rw [h3]
    simp
    omega

/-- A key outside the remaining documents looks up through the fold
unchanged. -/
theorem mLookup_foldl_ins_of_not_mem {k : String} :
    ∀ (docs : List RawDocM) (acc : ManifestMap), k ∉ docs.map RawDocM.doc_id →
      mLookup k (docs.foldl (fun m d => mInsert d.doc_id d.fingerprint m) acc)
        = mLookup k acc := by
  intro docs
  induction docs with
  | nil => intro acc _; rfl
  | cons d rest ih =>
    intro acc hk
    rw [List.map_cons, List.mem_cons] at hk
    push_neg at hk
    rw [List.foldl_cons, ih _ hk.2, mLookup_mInsert_ne _ hk.1]

/-- Every emitted document's fingerprint is found in the induced manifest map
when the emitted ids are distinct. -/
theorem mLookup_manifestOf {docs : List RawDocM}
    (hnodup : (docs.map RawDocM.doc_id).Nodup) :
    ∀ d ∈ docs, mLookup d.doc_id (manifestOf docs) = some d.fingerprint := by
  unfold manifestOf
  suffices h : ∀ (l : List RawDocM) (acc : ManifestMap), (l.map RawDocM.doc_id).Nodup →
      ∀ d ∈ l, mLookup d.doc_id
        (l.foldl (fun m d => mInsert d.doc_id d.fingerprint m) acc) = some d.fingerprint by
    exact h docs [] hnodup
  intro l
  induction l with
  | nil => intro acc _ d hd; cases hd
  | cons d₀ rest ih =>
    intro acc hnd d hd
    rw [List.map_cons, List.nodup_cons] at hnd
    rw [List.foldl_cons]
    rcases List.mem_cons.mp hd with hdd | hdd
    · subst hdd
      rw [mLookup_foldl_ins_of_not_mem rest _ hnd.1, mLookup_mInsert_self]
    · exact ih _ hnd.2 d hdd

/-- Keys of the induced manifest map come from the emitted ids. -/
theorem mem_mKeys_manifestOf {k : String} :
    ∀ docs : List RawDocM, k ∈ mKeys (manifestOf docs) → k ∈ docs.map RawDocM.doc_id := by
  suffices h : ∀ (l : List RawDocM) (acc : ManifestMap),
      k ∈ mKeys (l.foldl (fun m d => mInsert d.doc_id d.fingerprint m) acc) →
      k ∈ l.map RawDocM.doc_id ∨ k ∈ mKeys acc by
    intro docs hk
    rcases h docs [] (by simpa [manifestOf] using hk) with h1 | h1
    · exact h1
    · simp [mKeys] at h1
  intro l
  induction l with
  | nil => intro acc h; exact Or.inr h
  | cons d rest ih =>
    intro acc h
    rw [List.foldl_cons] at h
    rcases ih _ h with h1 | h1
    · exact Or.inl (by rw [List.map_cons]; exact List.mem_cons_of_mem _ h1)
    · rcases mem_mKeys_mInsert h1 with h2 | h2
      · exact Or.inl (by rw [List.map_cons, h2]; exact List.mem_cons_self _ _)
      · exact Or.inr h2

/-- Every run writes the manifest `⟨1, manifestOf docs⟩`: version 1 plus the
map induced by the emitted documents, whatever the old manifest held. -/
theorem index_sources_manifest (oldManifest : ManifestMap) (rb : Bool)
    (docs : List RawDocM) (s k : Nat) :
    (index_sources oldManifest rb docs s k).manifest = ⟨1, manifestOf docs⟩ := by
  unfold index_sources manifestOf
  dsimp only
  rw [foldl_stepDoc_newDocs]

/-- A non-rebuild run whose every document is already fingerprinted in the old
manifest, and whose old manifest has no key outside the emitted ids, indexes
nothing, removes nothing, issues no writer operation and does not commit. -/
theorem index_sources_all_skip (oldM : ManifestMap) (docs : List RawDocM) (s k : Nat)
    (hall : ∀ d ∈ docs, mLookup d.doc_id oldM = some d.fingerprint)
    (hseen : ∀ id ∈ mKeys oldM, id ∈ docs.map RawDocM.doc_id) :
    (index_sources oldM false docs s k).stats.indexed = 0
    ∧ (index_sources oldM false docs s k).stats.removed = 0
    ∧ (index_sources oldM false docs s k).committed = false
    ∧ (index_sources oldM false docs s k).ops = [] := by
  obtain ⟨hidx, hops, -⟩ := foldl_stepDoc_all_skip oldM docs ⟨[], [], 0, 0, []⟩ hall
  have hrem : ((mKeys oldM).filter fun id =>
      ¬ (docs.foldl (stepDoc oldM false) ⟨[], [], 0, 0, []⟩).seen.contains id) = [] := by
    rw [List.filter_eq_nil_iff]
    intro a ha
    simp only [foldl_stepDoc_seen]
    simp [hseen a ha]
  have e1 : (index_sources oldM false docs s k).stats.indexed
      = (docs.foldl (stepDoc oldM false) ⟨[], [], 0, 0, []⟩).indexed := rfl
  have e2 : (index_sources oldM false docs s k).stats.removed
      = ((mKeys oldM).filter fun id =>
          ¬ (docs.foldl (stepDoc oldM false) ⟨[], [], 0, 0, []⟩).seen.contains id).length := rfl
  have e3 : (index_sources oldM false docs s k).committed
      = decide ((false : Bool) = true
          ∨ 0 < (docs.foldl (stepDoc oldM false) ⟨[], [], 0, 0, []⟩).indexed
          ∨ 0 < ((mKeys oldM).filter fun id =>
              ¬ (docs.foldl (stepDoc oldM false) ⟨[], [], 0, 0, []⟩).seen.contains id).length) := rfl
  have e4 : (index_sources oldM false docs s k).ops
      = (docs.foldl (stepDoc oldM false) ⟨[], [], 0, 0, []⟩).ops
        ++ ((mKeys oldM).filter fun id =>
            ¬ (docs.foldl (stepDoc oldM false) ⟨[], [], 0, 0, []⟩).seen.contains id).map
            WriterOp.delTerm := rfl
  refine ⟨?_, ?_, ?_, ?_⟩
  · rw [e1, hidx]
  · rw [e2, hrem]
    rfl
  · rw [e3, hidx, hrem]
    rfl
  · rw [e4, hops, hrem]
    rfl

/-- C1: with stable sources (the same documents with the same fingerprints,
distinct ids) and `rebuild = false`, a second `index_sources` run reports
`indexed = 0` and `removed = 0`, issues no writer operation and does not
commit, and serializes a manifest byte-identical to the first run's. -/
theorem index_twice_idempotent (oldM : ManifestMap) (docs : List RawDocM)
    (s₁ k₁ s₂ k₂ : Nat) (hnodup : (docs.map RawDocM.doc_id).Nodup) :
    (index_sources (index_sources oldM false docs s₁ k₁).manifest.docs
        false docs s₂ k₂).stats.indexed = 0
    ∧ (index_sources (index_sources oldM false docs s₁ k₁).manifest.docs
        false docs s₂ k₂).stats.removed = 0
    ∧ (index_sources (index_sources oldM false docs s₁ k₁).manifest.docs
        false docs s₂ k₂).committed = false
    ∧ (index_sources (index_sources oldM false docs s₁ k₁).manifest.docs
        false docs s₂ k₂).ops = []
    ∧ serializeManifest (index_sources (index_sources oldM false docs s₁ k₁).manifest.docs
        false docs s₂ k₂).manifest
      = serializeManifest (index_sources oldM false docs s₁ k₁).manifest := by
  have hm1 : (index_sources oldM false docs s₁ k₁).manifest = ⟨1, manifestOf docs⟩ :=
    index_sources_manifest oldM false docs s₁ k₁
  have hdocs : (index_sources oldM false docs s₁ k₁).manifest.docs = manifestOf docs := by
    rw [hm1]
  obtain ⟨h1, h2, h3, h4⟩ := index_sources_all_skip (manifestOf docs) docs s₂ k₂
    (mLookup_manifestOf hnodup) (fun id hid => mem_mKeys_manifestOf docs hid)
  rw [hdocs]
  refine ⟨h1, h2, h3, h4, ?_⟩
  rw [index_sources_manifest (manifestOf docs) false docs s₂ k₂, hm1]

theorem index_twice_idempotent_witness :
    ([docW1, docW2].map RawDocM.doc_id).Nodup
    ∧ ((index_sources (index_sources [] false [docW1, docW2] 2 0).manifest.docs
          false [docW1, docW2] 2 0).stats.indexed = 0
      ∧ (index_sources (index_sources [] false [docW1, docW2] 2 0).manifest.docs
          false [docW1, docW2] 2 0).stats.removed = 0
      ∧ (index_sources (index_sources [] false [docW1, docW2] 2 0).manifest.docs
          false [docW1, docW2] 2 0).committed = false
      ∧ (index_sources (index_sources [] false [docW1, docW2] 2 0).manifest.docs
          false [docW1, docW2] 2 0).ops = []
      ∧ serializeManifest (index_sources (index_sources [] false [docW1, docW2] 2 0).manifest.docs
          false [docW1, docW2] 2 0).manifest
        = serializeManifest (index_sources [] false [docW1, docW2] 2 0).manifest) :=
  ⟨by decide, index_twice_idempotent [] [docW1, docW2] 2 0 2 0 (by decide)⟩

/-- Lookup succeeds exactly on the map's keys. -/
theorem mLookup_isSome_iff {k : String} : ∀ {m : ManifestMap},
    (mLookup k m).isSome = true ↔ k ∈ mKeys m := by
  intro m
  induction m with
  | nil => simp [mLookup, mKeys]
  | cons kv rest ih =>
    obtain ⟨k', v'⟩ := kv
    by_cases hk : k = k'
    · subst hk
      simp [mLookup, mKeys]
    · rw [mLookup]
      rw [if_neg hk]
      constructor
      · intro h
        have h1 : k ∈ mKeys rest := ih.mp h
        simp only [mKeys, List.map_cons, List.mem_cons]
        exact Or.inr (by simpa [mKeys] using h1)
      · intro h
        simp only [mKeys, List.map_cons, List.mem_cons] at h
        rcases h with h | h
        · exact absurd h hk
        · exact ih.mpr (by simpa [mKeys] using h)

/-- An emitted id is a key of the induced manifest map. -/
theorem mem_docs_mLookup_manifestOf {k : String} :
    ∀ docs : List RawDocM, k ∈ docs.map RawDocM.doc_id →
      (mLookup k (manifestOf docs)).isSome = true := by
  suffices h : ∀ (l : List RawDocM) (acc : ManifestMap),
      (k ∈ l.map RawDocM.doc_id ∨ (mLookup k acc).isSome = true) →
      (mLookup k (l.foldl (fun m d => mInsert d.doc_id d.fingerprint m) acc)).isSome
        = true by
    intro docs hk
    simpa [manifestOf] using h docs [] (Or.inl hk)
  intro l
  induction l with
  | nil =>
    intro acc h
    rcases h with h | h
    · simp at h
    · exact h
  | cons d rest ih =>
    intro acc h
    rw [List.foldl_cons]
    refine ih _ ?_
    by_cases hk : k = d.doc_id
    · subst hk
      exact Or.inr (by rw [mLookup_mInsert_self]; rfl)
    · rcases h with h | h
      · rw [List.map_cons, List.mem_cons] at h
        rcases h with h | h
        · exact absurd h hk
        · exact Or.inl h
      · exact Or.inr (by rw [mLookup_mInsert_ne _ hk]; exact h)

/-- Counting distributes over append. -/
theorem countId_append (a b : List RawDocM) (id : String) :
    countId (a ++ b) id = countId a id + countId b id := by
  unfold countId
  exact List.countP_append _ _ _

/-- `delete_term` leaves no document with the deleted id. -/
theorem countId_filter_self (idx : List RawDocM) (id : String) :
    countId (idx.filter fun x => x.doc_id ≠ id) id = 0 := by
  unfold countId
  rw [List.countP_eq_zero]
  intro a ha
  have h2 := (List.mem_filter.mp ha).2
  simp only [decide_eq_true_eq] at h2
  simp [h2]

/-- `delete_term` does not touch documents with a different id. -/
theorem countId_filter_ne (idx : List RawDocM) {j id : String} (hne : j ≠ id) :
    countId (idx.filter fun x => x.doc_id ≠ id) j = countId idx j := by
  unfold countId
  induction idx with
  | nil => rfl
  | cons x rest ih =>
    rw [List.filter_cons]
    by_cases hx : x.doc_id = id
    · have hpx : ¬ ((decide ¬ x.doc_id = id) = true) := by simp [hx]
      have hxj : (x.doc_id == j) = false := by simp [hx, Ne.symm hne]
      rw [if_neg hpx, List.countP_cons, ih, hxj]
      simp
    · have hpx : (decide ¬ x.doc_id = id) = true := by simp [hx]
      rw [if_pos hpx, List.countP_cons, List.countP_cons, ih]

/-- Writer batches compose by appending. -/
theorem applyOps_append (idx : List RawDocM) (a b : List WriterOp) :
    applyOps idx (a ++ b) = applyOps (applyOps idx a) b := by
  unfold applyOps
  exact List.foldl_append _ _ _ _

/-- Applying a block of `delete_term`s removes exactly the listed ids. -/
theorem countId_applyOps_delTerms (ids : List String) :
    ∀ (idx : List RawDocM) (id : String),
      countId (applyOps idx (ids.map WriterOp.delTerm)) id
        = if id ∈ ids then 0 else countId idx id := by
  induction ids with
  | nil => intro idx id; simp [applyOps]
  | cons a rest ih =>
    intro idx id
    rw [List.map_cons]
    have h1 : applyOps idx (WriterOp.delTerm a :: rest.map WriterOp.delTerm)
        = applyOps (idx.filter fun x => x.doc_id ≠ a) (rest.map WriterOp.delTerm) := rfl
    rw [h1, ih]
    by_cases hid : id = a
    · subst hid
      have h2 : countId (idx.filter fun x => x.doc_id ≠ id) id = 0 :=
        countId_filter_self idx id
      rw [if_pos (List.mem_cons_self id rest)]
      by_cases hr : id ∈ rest
      · rw [if_pos hr]
      · rw [if_neg hr]
        exact h2
    · rw [countId_filter_ne idx hid]
      simp [List.mem_cons, hid]

/-- One `index`-branch step keeps the one-copy-per-recorded-id invariant. -/
theorem indexStep_count_inv (oldM : ManifestMap) (st : FoldSt) (idx : List RawDocM)
    (h : ∀ j, countId (applyOps idx st.ops) j
        = if (mLookup j st.newDocs).isSome = true ∨ (mLookup j oldM).isSome = true
          then 1 else 0) (d : RawDocM) :
    ∀ j, countId (applyOps idx (indexStep st d).ops) j
        = if (mLookup j (indexStep st d).newDocs).isSome = true
            ∨ (mLookup j oldM).isSome = true then 1 else 0 := by
  intro j
  have hops : applyOps idx (indexStep st d).ops
      = ((applyOps idx st.ops).filter fun x => x.doc_id ≠ d.doc_id) ++ [d] := by
    unfold indexStep applyOps
    dsimp only
    rw [List.foldl_append]
    rfl
  have hnd : (indexStep st d).newDocs = mInsert d.doc_id d.fingerprint st.newDocs := rfl
  rw [hops, hnd, countId_append]
  by_cases hj : j = d.doc_id
  · subst hj
    rw [countId_filter_self, mLookup_mInsert_self]
    simp [countId]
  · rw [countId_filter_ne _ hj, mLookup_mInsert_ne _ hj, h j]
    have h0 : countId [d] j = 0 := by
      simp [countId, Ne.symm hj]
    rw [h0]
    exact Nat.add_zero _

/-- The per-document fold keeps the invariant: after replaying the issued
writer operations, the index holds exactly one document per id recorded in the
accumulated manifest, plus one per old-manifest id not yet overwritten. -/
theorem fold_count_inv (oldM : ManifestMap) (rb : Bool) :
    ∀ (docs : List RawDocM) (st : FoldSt) (idx : List RawDocM),
      (∀ j, countId (applyOps idx st.ops) j
          = if (mLookup j st.newDocs).isSome = true ∨ (mLookup j oldM).isSome = true
            then 1 else 0) →
      ∀ j, countId (applyOps idx (docs.foldl (stepDoc oldM rb) st).ops) j
          = if (mLookup j (docs.foldl (stepDoc oldM rb) st).newDocs).isSome = true
              ∨ (mLookup j oldM).isSome = true then 1 else 0 := by
  intro docs
  induction docs with
  | nil => intro st idx h j; exact h j
  | cons d rest ih =>
    intro st idx h j
    rw [List.foldl_cons]
    refine ih (stepDoc oldM rb st d) idx ?_ j
    intro i
    cases hlk : mLookup d.doc_id oldM with
    | none =>
      have hstep : stepDoc oldM rb st d = indexStep st d := by
        unfold stepDoc
        rw [hlk]
      rw [hstep]
      exact indexStep_count_inv oldM st idx h d i
    | some fp =>
      by_cases hg : ¬ rb = true ∧ fp = d.fingerprint
      · have hstep : stepDoc oldM rb st d
            = { st with
                unchanged := st.unchanged + 1
                seen := d.doc_id :: st.seen
                newDocs := mInsert d.doc_id fp st.newDocs } := by
          unfold stepDoc
          rw [hlk]
          dsimp only
          rw [if_pos hg]
        rw [hstep]
        dsimp only
        by_cases hi : i = d.doc_id
        · subst hi
          rw [h d.doc_id, mLookup_mInsert_self]
          simp [hlk]
        · rw [h i, mLookup_mInsert_ne _ hi]
      · have hstep : stepDoc oldM rb st d = indexStep st d := by
          unfold stepDoc
          rw [hlk]
          dsimp only
          rw [if_neg hg]
        rw [hstep]
        exact indexStep_count_inv oldM st idx h d i

/-- The fold's `indexed` counter never decreases. -/
theorem foldl_stepDoc_indexed_mono (oldM : ManifestMap) (rb : Bool) :
    ∀ (docs : List RawDocM) (st : FoldSt),
      st.indexed ≤ (docs.foldl (stepDoc oldM rb) st).indexed := by
  intro docs
  induction docs with
  | nil => intro st; exact le_refl _
  | cons d rest ih =>
    intro st
    rw [List.foldl_cons]
    refine le_trans ?_ (ih (stepDoc oldM rb st d))
    unfold stepDoc
    cases mLookup d.doc_id oldM with
    | none => exact Nat.le_succ _
    | some fp =>
      dsimp only
      split
      · exact le_refl _
      · exact Nat.le_succ _

/-- If a non-rebuild fold indexed nothing, every document was skipped: no
writer operation was issued and every fingerprint matched the old manifest. -/
theorem foldl_stepDoc_indexed_zero (oldM : ManifestMap) :
    ∀ (docs : List RawDocM) (st : FoldSt),
      (docs.foldl (stepDoc oldM false) st).indexed = st.indexed →
      (docs.foldl (stepDoc oldM false) st).ops = st.ops
      ∧ ∀ d ∈ docs, mLookup d.doc_id oldM = some d.fingerprint := by
  intro docs
  induction docs with
  | nil =>
    intro st _
    exact ⟨rfl, fun d hd => absurd hd (List.not_mem_nil d)⟩
  | cons d rest ih =>
    intro st h
    rw [List.foldl_cons] at h ⊢
    cases hlk : mLookup d.doc_id oldM with
    | none =>
      exfalso
      have hstep : stepDoc oldM false st d = indexStep st d := by
        unfold stepDoc
        rw [hlk]
      rw [hstep] at h
      have hm := foldl_stepDoc_indexed_mono oldM false rest (indexStep st d)
      have h1 : (indexStep st d).indexed = st.indexed + 1 := rfl
      omega
    | some fp =>
      by_cases hfp : fp = d.fingerprint
      · have hstep : stepDoc oldM false st d
            = { st with
                unchanged := st.unchanged + 1
                seen := d.doc_id :: st.seen
                newDocs := mInsert d.doc_id fp st.newDocs } := by
          unfold stepDoc
          rw [hlk]
          dsimp only
          rw [if_pos ⟨by simp, hfp⟩]
        rw [hstep] at h ⊢
        obtain ⟨hops, hall⟩ := ih _ h
        refine ⟨hops, ?_⟩
        intro d' hd'
        rcases List.mem_cons.mp hd' with h1 | h1
        · subst h1
          rw [hlk, hfp]
        · exact hall d' h1
      · exfalso
        have hstep : stepDoc oldM false st d = indexStep st d := by
          unfold stepDoc
          rw [hlk]
          dsimp only
          rw [if_neg fun hc => hfp hc.2]
        rw [hstep] at h
        have hm := foldl_stepDoc_indexed_mono oldM false rest (indexStep st d)
        have h1 : (indexStep st d).indexed = st.indexed + 1 := rfl
        omega

/-- C2: after any `index_sources` run, the index a reader sees holds exactly
one document per `doc_id` recorded in the written manifest and none for any
other id — provided the pre-state satisfied the same invariant for the loaded
manifest (vacuous under `rebuild`, whose first operation clears the index). -/
theorem manifest_index_equiv (oldM : ManifestMap) (rebuild : Bool)
    (docs : List RawDocM) (s k : Nat) (idx0 : List RawDocM)
    (hpre : rebuild = false →
      ∀ id, countId idx0 id = if (mLookup id oldM).isSome = true then 1 else 0) :
    ∀ id, countId (visibleIndex idx0 (index_sources oldM rebuild docs s k)) id
      = if (mLookup id (index_sources oldM rebuild docs s k).manifest.docs).isSome = true
        then 1 else 0 := by
  cases rebuild with
  | true =>
    have eops : (index_sources oldM true docs s k).ops
        = (docs.foldl (stepDoc [] true) ⟨[], [], 0, 0, [WriterOp.delAll]⟩).ops
          ++ List.map WriterOp.delTerm [] := rfl
    have eman : (index_sources oldM true docs s k).manifest.docs
        = (docs.foldl (stepDoc [] true) ⟨[], [], 0, 0, [WriterOp.delAll]⟩).newDocs := rfl
    have ecom : (index_sources oldM true docs s k).committed = true := rfl
    have hvis : visibleIndex idx0 (index_sources oldM true docs s k)
        = applyOps idx0 (index_sources oldM true docs s k).ops := by
      unfold visibleIndex
      rw [if_pos ecom]
    have hbase : ∀ j, countId (applyOps idx0
          (FoldSt.ops ⟨[], [], 0, 0, [WriterOp.delAll]⟩)) j
        = if (mLookup j (FoldSt.newDocs ⟨[], [], 0, 0, [WriterOp.delAll]⟩)).isSome = true
            ∨ (mLookup j ([] : ManifestMap)).isSome = true then 1 else 0 := by
      intro j
      have h0 : applyOps idx0 (FoldSt.ops ⟨[], [], 0, 0, [WriterOp.delAll]⟩) = [] := rfl
      rw [h0]
      simp [countId, mLookup]
    intro id
    rw [hvis, eops]
    simp only [List.map_nil, List.append_nil]
    have hinv := fold_count_inv [] true docs ⟨[], [], 0, 0, [WriterOp.delAll]⟩ idx0 hbase id
    rw [eman]
    simpa [mLookup] using hinv
  | false =>
    have hpre' := hpre rfl
    have eops : (index_sources oldM false docs s k).ops
        = (docs.foldl (stepDoc oldM false) ⟨[], [], 0, 0, []⟩).ops
          ++ ((mKeys oldM).filter fun id =>
              ¬ (docs.foldl (stepDoc oldM false) ⟨[], [], 0, 0, []⟩).seen.contains id).map
              WriterOp.delTerm := rfl
    have eman : (index_sources oldM false docs s k).manifest.docs
        = (docs.foldl (stepDoc oldM false) ⟨[], [], 0, 0, []⟩).newDocs := rfl
    have ecom : (index_sources oldM false docs s k).committed
        = decide ((false : Bool) = true
          ∨ 0 < (docs.foldl (stepDoc oldM false) ⟨[], [], 0, 0, []⟩).indexed
          ∨ 0 < ((mKeys oldM).filter fun id =>
              ¬ (docs.foldl (stepDoc oldM false) ⟨[], [], 0, 0, []⟩).seen.contains id).length)
        := rfl
    have hman2 : (docs.foldl (stepDoc oldM false) ⟨[], [], 0, 0, []⟩).newDocs
        = manifestOf docs := by
      rw [foldl_stepDoc_newDocs]
      rfl
    have hbase : ∀ j, countId (applyOps idx0 (FoldSt.ops ⟨[], [], 0, 0, []⟩)) j
        = if (mLookup j (FoldSt.newDocs ⟨[], [], 0, 0, []⟩)).isSome = true
            ∨ (mLookup j oldM).isSome = true then 1 else 0 := by
      intro j
      have h0 : applyOps idx0 (FoldSt.ops ⟨[], [], 0, 0, []⟩) = idx0 := rfl
      rw [h0, hpre' j]
      simp [mLookup]
    have hinv := fold_count_inv oldM false docs ⟨[], [], 0, 0, []⟩ idx0 hbase
    by_cases hc : (index_sources oldM false docs s k).committed = true
    · have hvis : visibleIndex idx0 (index_sources oldM false docs s k)
          = applyOps idx0 (index_sources oldM false docs s k).ops := by
        unfold visibleIndex
        rw [if_pos hc]
      intro id
      rw [hvis, eops, applyOps_append, countId_applyOps_delTerms, eman, hman2]
      by_cases hmem : id ∈ (mKeys oldM).filter fun i =>
          ¬ (docs.foldl (stepDoc oldM false) ⟨[], [], 0, 0, []⟩).seen.contains i
      · rw [if_pos hmem]
        have hnotseen := (List.mem_filter.mp hmem).2
        have hid : id ∉ docs.map RawDocM.doc_id := by
          intro hin
          have hcont : (docs.foldl (stepDoc oldM false) ⟨[], [], 0, 0, []⟩).seen.contains id
              = true := by
            rw [foldl_stepDoc_seen]
            simp [hin]
          simp at hnotseen
          exact hnotseen (by simpa using hcont)
        have h1 : ¬ (mLookup id (manifestOf docs)).isSome = true :=
          fun h => hid (mem_mKeys_manifestOf docs (mLookup_isSome_iff.mp h))
        have hnone : (mLookup id (manifestOf docs)).isSome = false := by simpa using h1
        simp [hnone]
      · rw [if_neg hmem, hinv id, hman2]
        cases hiso : (mLookup id (manifestOf docs)).isSome with
        | true => simp [hiso]
        | false =>
          cases holdm : (mLookup id oldM).isSome with
          | false => simp [hiso, holdm]
          | true =>
            exfalso
            apply hmem
            rw [List.mem_filter]
            refine ⟨mLookup_isSome_iff.mp holdm, ?_⟩
            rw [foldl_stepDoc_seen]
            simp only [decide_eq_true_eq]
            simp only [List.append_nil]
            intro hin
            have hin2 : id ∈ docs.map RawDocM.doc_id := by simpa using hin
            have h2 := mem_docs_mLookup_manifestOf docs hin2
            rw [hiso] at h2
            cases h2
    · have hvis : visibleIndex idx0 (index_sources oldM false docs s k) = idx0 := by
        unfold visibleIndex
        rw [if_neg hc]
      have hc' : (index_sources oldM false docs s k).committed = false := by
        simpa using hc
      rw [ecom] at hc'
      have hprop := of_decide_eq_false hc'
      have hidx0 : ¬ 0 < (docs.foldl (stepDoc oldM false) ⟨[], [], 0, 0, []⟩).indexed :=
        fun h => hprop (Or.inr (Or.inl h))
      have hrem0 : ¬ 0 < ((mKeys oldM).filter fun id =>
          ¬ (docs.foldl (stepDoc oldM false) ⟨[], [], 0, 0, []⟩).seen.contains id).length :=
        fun h => hprop (Or.inr (Or.inr h))
      have hidxz : (docs.foldl (stepDoc oldM false) ⟨[], [], 0, 0, []⟩).indexed = 0 := by
        omega
      have hremnil : ((mKeys oldM).filter fun id =>
          ¬ (docs.foldl (stepDoc oldM false) ⟨[], [], 0, 0, []⟩).seen.contains id) = [] :=
        List.length_eq_zero.mp (by omega)
      obtain ⟨-, hall⟩ := foldl_stepDoc_indexed_zero oldM docs ⟨[], [], 0, 0, []⟩ hidxz
      have hsub : ∀ a ∈ mKeys oldM, a ∈ docs.map RawDocM.doc_id := by
        intro a ha
        have h2 := List.filter_eq_nil_iff.mp hremnil a ha
        rw [foldl_stepDoc_seen] at h2
        simpa using h2
      intro id
      rw [hvis, eman, hman2, hpre' id]
      have hiff : (mLookup id oldM).isSome = (mLookup id (manifestOf docs)).isSome := by
        cases holdm : (mLookup id oldM).isSome with
        | true =>
          exact (mem_docs_mLookup_manifestOf docs
            (hsub id (mLookup_isSome_iff.mp holdm))).symm
        | false =>
          cases hiso : (mLookup id (manifestOf docs)).isSome with
          | false => rfl
          | true =>
            exfalso
            have hidm := mem_mKeys_manifestOf docs (mLookup_isSome_iff.mp hiso)
            rw [List.mem_map] at hidm
            obtain ⟨d, hd, hdid⟩ := hidm
            have h3 := hall d hd
            rw [← hdid] at holdm
            rw [h3] at holdm
            simp at holdm
      rw [hiff]

theorem manifest_index_equiv_witness :
    countId (visibleIndex [] (index_sources [] true [docW1, docW2] 2 0)) "fs:corpus:a.txt"
      = if (mLookup "fs:corpus:a.txt"
            (index_sources [] true [docW1, docW2] 2 0).manifest.docs).isSome = true
        then 1 else 0 :=
  manifest_index_equiv [] true [docW1, docW2] 2 0 []
    (fun h => absurd h (by decide)) "fs:corpus:a.txt"

/-- `scanFrom` distributes over append. -/
theorem scanFrom_append (st : ScanSt) (a b : List Char) :
    scanFrom st (a ++ b) = scanFrom (scanFrom st a) b := by
  unfold scanFrom
  exact List.foldl_append _ _ _ _

/-- Soundness of the `segChain` checker: it guarantees every nonempty prefix
scans to an open state. -/
theorem segChain_sound : ∀ (s : List Char) (st : ScanSt), segChain st s = true →
    ∀ p, p <+: s → p ≠ [] → (scanFrom st p).Open := by
  intro s
  induction s with
  | nil =>
    intro st _ p hp hne
    have h0 : p = [] := by simpa using hp
    exact absurd h0 hne
  | cons c rest ih =>
    intro st h p hp hne
    unfold segChain at h
    rw [Bool.and_eq_true] at h
    rcases List.prefix_cons_iff.mp hp with h3 | ⟨t, ht1, ht2⟩
    · exact absurd h3 hne
    · subst ht1
      have e : scanFrom st (c :: t) = scanFrom (scanChar st c) t := rfl
      rw [e]
      by_cases htn : t = []
      · subst htn
        have e2 : scanFrom (scanChar st c) [] = scanChar st c := rfl
        rw [e2]
        have hor : 1 ≤ (scanChar st c).depth ∨ (scanChar st c).inStr = true := by
          simpa using h.1
        exact hor
      · exact ih (scanChar st c) h.2 t ht2 htn

/-- A prefix of an append is a prefix of the left part or extends it. -/
theorem prefix_append_cases {α : Type} {p a b : List α} (h : p <+: a ++ b) :
    p <+: a ∨ ∃ q, p = a ++ q ∧ q <+: b := by
  induction a generalizing p with
  | nil =>
    refine Or.inr ⟨p, ?_, ?_⟩
    · simp
    · simpa using h
  | cons x xs ih =>
    rw [List.cons_append] at h
    rcases List.prefix_cons_iff.mp h with h1 | ⟨t, ht1, ht2⟩
    · exact Or.inl (by rw [h1]; exact List.nil_prefix)
    · subst ht1
      rcases ih ht2 with h3 | ⟨q, hq1, hq2⟩
      · exact Or.inl (List.cons_prefix_cons.mpr ⟨rfl, h3⟩)
      · exact Or.inr ⟨q, by rw [hq1, List.cons_append], hq2⟩

/-- Segments whose every prefix scans open compose. -/
theorem segOpen_append {st₀ st₁ st₂ : ScanSt} {a b : List Char}
    (ha : scanFrom st₀ a = st₁ ∧ ∀ p, p <+: a → (scanFrom st₀ p).Open)
    (hb : scanFrom st₁ b = st₂ ∧ ∀ p, p <+: b → (scanFrom st₁ p).Open) :
    scanFrom st₀ (a ++ b) = st₂ ∧ ∀ p, p <+: a ++ b → (scanFrom st₀ p).Open := by
  constructor
  · rw [scanFrom_append, ha.1, hb.1]
  · intro p hp
    rcases prefix_append_cases hp with h1 | ⟨q, hq1, hq2⟩
    · exact ha.2 p h1
    · subst hq1
      rw [scanFrom_append, ha.1]
      exact hb.2 q hq2

/-- A verified `segChain` together with an open start state gives openness of
every prefix. -/
theorem segChain_segOpen {st : ScanSt} {s : List Char} (h0 : st.Open)
    (h : segChain st s = true) :
    ∀ p, p <+: s → (scanFrom st p).Open := by
  intro p hp
  by_cases hne : p = []
  · subst hne
    exact h0
  · exact segChain_sound s st h p hp hne

/-- Characters that are not quotes or braces leave an out-of-string scan state
unchanged; at positive depth all prefixes stay open. -/
theorem scan_plain {d : Nat} (hd : 1 ≤ d) :
    ∀ s : List Char, (∀ c ∈ s, c ≠ '"' ∧ c ≠ '{' ∧ c ≠ '}') →
      scanFrom ⟨d, false, false⟩ s = ⟨d, false, false⟩
      ∧ ∀ p, p <+: s → (scanFrom ⟨d, false, false⟩ p).Open := by
  intro s
  induction s with
  | nil =>
    intro _
    refine ⟨rfl, ?_⟩
    intro p hp
    have h0 : p = [] := by simpa using hp
    subst h0
    exact Or.inl hd
  | cons c rest ih =>
    intro hall
    have hc := hall c (List.mem_cons_self _ _)
    have hrest := fun c' hc' => hall c' (List.mem_cons_of_mem c hc')
    have hstep : scanChar ⟨d, false, false⟩ c = ⟨d, false, false⟩ := by
      simp [scanChar, hc.1, hc.2.1, hc.2.2]
    obtain ⟨ih1, ih2⟩ := ih hrest
    constructor
    · have e : scanFrom ⟨d, false, false⟩ (c :: rest)
          = scanFrom (scanChar ⟨d, false, false⟩ c) rest := rfl
      rw [e, hstep, ih1]
    · intro p hp
      rcases List.prefix_cons_iff.mp hp with h1 | ⟨t, ht1, ht2⟩
      · subst h1
        exact Or.inl hd
      · subst ht1
        have e : scanFrom ⟨d, false, false⟩ (c :: t)
            = scanFrom (scanChar ⟨d, false, false⟩ c) t := rfl
        rw [e, hstep]
        exact ih2 t ht2

/-- `Char.ofNat` below the surrogate range keeps its code point. -/
theorem toNat_ofNat_small {n : Nat} (h : n < 55296) : (Char.ofNat n).toNat = n := by
  have hv : n.isValidChar := Or.inl h
  unfold Char.ofNat
  rw [dif_pos hv]
  rfl

/-- The decimal renderer only emits digit characters. -/
theorem natDigitsGo_mem : ∀ (fuel n : Nat) (acc : List Char),
    (∀ c ∈ acc, 48 ≤ c.toNat ∧ c.toNat ≤ 57) →
    ∀ c ∈ natDigitsGo fuel n acc, 48 ≤ c.toNat ∧ c.toNat ≤ 57 := by
  intro fuel
  induction fuel with
  | zero =>
    intro n acc hacc c hc
    exact hacc c hc
  | succ f ih =>
    intro n acc hacc c hc
    unfold natDigitsGo at hc
    split at hc
    · exact hacc c hc
    · refine ih (n / 10) _ ?_ c hc
      intro c' hc'
      rcases List.mem_cons.mp hc' with h1 | h1
      · subst h1
        have hml : n % 10 < 10 := Nat.mod_lt _ (by omega)
        rw [toNat_ofNat_small (by omega)]
        omega
      · exact hacc c' h1

/-- `natDigits` only emits digit characters. -/
theorem natDigits_mem (n : Nat) : ∀ c ∈ natDigits n, 48 ≤ c.toNat ∧ c.toNat ≤ 57 := by
  intro c hc
  unfold natDigits at hc
  split at hc
  · have h0 : c = '0' := by simpa using hc
    subst h0
    exact ⟨by decide, by decide⟩
  · exact natDigitsGo_mem _ _ [] (fun x hx => absurd hx (List.not_mem_nil x)) c hc

/-- Digit characters are neither quotes nor braces. -/
theorem digit_not_special {c : Char} (h : 48 ≤ c.toNat ∧ c.toNat ≤ 57) :
    c ≠ '"' ∧ c ≠ '{' ∧ c ≠ '}' := by
  refine ⟨?_, ?_, ?_⟩ <;> intro he <;> subst he <;> revert h <;> decide

/-- Hex digits are neither quotes nor backslashes. -/
theorem hexDigit_not_special : ∀ n, n < 16 → hexDigit n ≠ '"' ∧ hexDigit n ≠ '\\' := by
  decide

/-- A two-character backslash escape stays inside the string literal. -/
theorem esc2_inStr (d : Nat) (x : Char) :
    scanFrom ⟨d, true, false⟩ ['\\', x] = ⟨d, true, false⟩
    ∧ ∀ p, p <+: ['\\', x] → (scanFrom ⟨d, true, false⟩ p).inStr = true := by
  refine ⟨rfl, ?_⟩
  intro p hp
  rcases List.prefix_cons_iff.mp hp with h1 | ⟨t, ht1, ht2⟩
  · subst h1
    rfl
  · subst ht1
    rcases List.prefix_cons_iff.mp ht2 with h2 | ⟨u, hu1, hu2⟩
    · subst h2
      rfl
    · subst hu1
      have hu : u = [] := by simpa using hu2
      subst hu
      rfl

/-- Non-special characters inside a string literal leave the state unchanged
and keep the scan inside the string. -/
theorem scanFrom_inStr_plain (d : Nat) :
    ∀ s : List Char, (∀ c ∈ s, c ≠ '"' ∧ c ≠ '\\') →
      scanFrom ⟨d, true, false⟩ s = ⟨d, true, false⟩
      ∧ ∀ p, p <+: s → (scanFrom ⟨d, true, false⟩ p).inStr = true := by
  intro s
  induction s with
  | nil =>
    intro _
    refine ⟨rfl, ?_⟩
    intro p hp
    have h0 : p = [] := by simpa using hp
    subst h0
    rfl
  | cons c rest ih =>
    intro hall
    have hc := hall c (List.mem_cons_self _ _)
    have hrest := fun c' hc' => hall c' (List.mem_cons_of_mem c hc')
    have hstep : scanChar ⟨d, true, false⟩ c = ⟨d, true, false⟩ := by
      simp [scanChar, hc.1, hc.2]
    obtain ⟨ih1, ih2⟩ := ih hrest
    constructor
    · have e : scanFrom ⟨d, true, false⟩ (c :: rest)
          = scanFrom (scanChar ⟨d, true, false⟩ c) rest := rfl
      rw [e, hstep, ih1]
    · intro p hp
      rcases List.prefix_cons_iff.mp hp with h1 | ⟨t, ht1, ht2⟩
      · subst h1
        rfl
      · subst ht1
        have e : scanFrom ⟨d, true, false⟩ (c :: t)
            = scanFrom (scanChar ⟨d, true, false⟩ c) t := rfl
        rw [e, hstep]
        exact ih2 t ht2

/-- In-string segments compose. -/
theorem segIn_append {d : Nat} {a b : List Char}
    (ha : scanFrom ⟨d, true, false⟩ a = ⟨d, true, false⟩
      ∧ ∀ p, p <+: a → (scanFrom ⟨d, true, false⟩ p).inStr = true)
    (hb : scanFrom ⟨d, true, false⟩ b = ⟨d, true, false⟩
      ∧ ∀ p, p <+: b → (scanFrom ⟨d, true, false⟩ p).inStr = true) :
    scanFrom ⟨d, true, false⟩ (a ++ b) = ⟨d, true, false⟩
    ∧ ∀ p, p <+: a ++ b → (scanFrom ⟨d, true, false⟩ p).inStr = true := by
  constructor
  · rw [scanFrom_append, ha.1, hb.1]
  · intro p hp
    rcases prefix_append_cases hp with h1 | ⟨q, hq1, hq2⟩
    · exact ha.2 p h1
    · subst hq1
      rw [scanFrom_append, ha.1]
      exact hb.2 q hq2

/-- The escape blob serde_json emits for one character stays inside the string
literal and returns to the neutral in-string state. -/
theorem escChar_scan (d : Nat) (c : Char) :
    scanFrom ⟨d, true, false⟩ (escChar c) = ⟨d, true, false⟩
    ∧ ∀ p, p <+: escChar c → (scanFrom ⟨d, true, false⟩ p).inStr = true := by
  unfold escChar
  split
  · exact esc2_inStr d '"'
  split
  · exact esc2_inStr d '\\'
  split
  · exact esc2_inStr d 'b'
  split
  · exact esc2_inStr d 't'
  split
  · exact esc2_inStr d 'n'
  split
  · exact esc2_inStr d 'f'
  split
  · exact esc2_inStr d 'r'
  split
  · rename_i h7 hlt
    refine segIn_append (esc2_inStr d 'u') (scanFrom_inStr_plain d _ ?_)
    intro x hx
    have h16a : c.toNat / 16 < 16 := by omega
    have h16b : c.toNat % 16 < 16 := Nat.mod_lt _ (by omega)
    simp only [List.mem_cons, List.not_mem_nil, or_false] at hx
    rcases hx with rfl | rfl | rfl | rfl
    · exact ⟨by decide, by decide⟩
    · exact ⟨by decide, by decide⟩
    · exact hexDigit_not_special _ h16a
    · exact hexDigit_not_special _ h16b
  · rename_i h1 h2 h3 h4 h5 h6 h7 h8
    refine scanFrom_inStr_plain d [c] ?_
    intro x hx
    have h0 : x = c := by simpa using hx
    subst h0
    exact ⟨h1, h2⟩

/-- The escaped body of a string literal stays inside the string. -/
theorem flatMap_escChar_inStr (d : Nat) : ∀ l : List Char,
    scanFrom ⟨d, true, false⟩ (l.flatMap escChar) = ⟨d, true, false⟩
    ∧ ∀ p, p <+: l.flatMap escChar → (scanFrom ⟨d, true, false⟩ p).inStr = true := by
  intro l
  induction l with
  | nil =>
    refine ⟨rfl, ?_⟩
    intro p hp
    have h0 : p = [] := by simpa using hp
    subst h0
    rfl
  | cons c rest ih =>
    rw [List.flatMap_cons]
    exact segIn_append (escChar_scan d c) ih

/-- A serialized string literal scans from depth `d` back to depth `d`, every
prefix staying open (inside the literal or at positive depth). -/
theorem jStr_scan {d : Nat} (hd : 1 ≤ d) (s : String) :
    scanFrom ⟨d, false, false⟩ (jStr s) = ⟨d, false, false⟩
    ∧ ∀ p, p <+: jStr s → (scanFrom ⟨d, false, false⟩ p).Open := by
  have hbody := flatMap_escChar_inStr d s.toList
  have hb2 : scanFrom ⟨d, true, false⟩ (escBody s) = ⟨d, true, false⟩ := hbody.1
  have hclose : scanFrom ⟨d, true, false⟩ ['"'] = ⟨d, false, false⟩ := rfl
  have e : jStr s = '"' :: (escBody s ++ ['"']) := rfl
  constructor
  · rw [e]
    have e2 : scanFrom ⟨d, false, false⟩ ('"' :: (escBody s ++ ['"']))
        = scanFrom ⟨d, true, false⟩ (escBody s ++ ['"']) := rfl
    rw [e2, scanFrom_append, hb2]
    exact hclose
  · intro p hp
    rw [e] at hp
    rcases List.prefix_cons_iff.mp hp with h1 | ⟨t, ht1, ht2⟩
    · subst h1
      exact Or.inl hd
    · subst ht1
      have e2 : scanFrom ⟨d, false, false⟩ ('"' :: t)
          = scanFrom ⟨d, true, false⟩ t := rfl
      rw [e2]
      rcases prefix_append_cases ht2 with h2 | ⟨q, hq1, hq2⟩
      · exact Or.inr (hbody.2 t h2)
      · subst hq1
        rw [scanFrom_append, hb2]
        rcases List.prefix_cons_iff.mp hq2 with h3 | ⟨u, hu1, hu2⟩
        · subst h3
          exact Or.inr rfl
        · subst hu1
          have hu : u = [] := by simpa using hu2
          subst hu
          rw [hclose]
          exact Or.inl hd

/-- The docs-object entries scan from depth `d` back to depth `d`, every
prefix staying open. -/
theorem entriesL_scan {d : Nat} (hd : 1 ≤ d) :
    ∀ m : ManifestMap,
      scanFrom ⟨d, false, false⟩ (entriesL m) = ⟨d, false, false⟩
      ∧ ∀ p, p <+: entriesL m → (scanFrom ⟨d, false, false⟩ p).Open := by
  intro m
  induction m with
  | nil =>
    refine ⟨rfl, ?_⟩
    intro p hp
    have h0 : p = [] := by simpa [entriesL] using hp
    subst h0
    exact Or.inl hd
  | cons kv rest ih =>
    obtain ⟨k, v⟩ := kv
    cases rest with
    | nil =>
      have e : entriesL [(k, v)] = jStr k ++ ([':'] ++ jStr v) := rfl
      rw [e]
      exact segOpen_append (jStr_scan hd k)
        (segOpen_append (scan_plain hd [':'] (by decide)) (jStr_scan hd v))
    | cons kv2 rs =>
      have e : entriesL ((k, v) :: kv2 :: rs)
          = jStr k ++ (([':'] ++ jStr v) ++ ([','] ++ entriesL (kv2 :: rs))) := by
        simp [entriesL]
      rw [e]
      exact segOpen_append (jStr_scan hd k)
        (segOpen_append
          (segOpen_append (scan_plain hd [':'] (by decide)) (jStr_scan hd v))
          (segOpen_append (scan_plain hd [','] (by decide)) ih))

/-- `save_manifest`'s output split before its final closing brace. -/
theorem serializeManifest_decomp (m : ManifestM) :
    serializeManifest m
      = ("\x7b\"version\":".toList
          ++ (natDigits m.version
            ++ (",\"docs\":\x7b".toList ++ (entriesL m.docs ++ ['}'])))) ++ ['}'] := by
  unfold serializeManifest
  rw [show ("\x7d\x7d".toList : List Char) = ['}', '}'] from rfl]
  simp [List.append_assoc]

/-- C9: reading an absent manifest file yields the empty default manifest, and
no strict prefix of the bytes `save_manifest` writes is ever accepted by a
later read: a partially written file surfaces an error, never an empty or
truncated manifest. -/
theorem manifest_load_safety (m : ManifestM) (p : List Char)
    (hp : p <+: serializeManifest m) (hne : p ≠ serializeManifest m) :
    load_manifest none = Except.ok ⟨0, []⟩
    ∧ load_manifest (some p) = Except.error () := by
  constructor
  · rfl
  · have hd1 : (1 : Nat) ≤ 1 := le_refl 1
    have h0val : scanFrom ⟨0, false, false⟩ "\x7b\"version\":".toList
        = ⟨1, false, false⟩ := by decide
    have h0chain : segChain ⟨0, false, false⟩ "\x7b\"version\":".toList = true := by decide
    have hA := scan_plain hd1 (natDigits m.version)
      (fun c hc => digit_not_special (natDigits_mem m.version c hc))
    have hB : scanFrom ⟨1, false, false⟩ ",\"docs\":\x7b".toList = ⟨2, false, false⟩
        ∧ ∀ q, q <+: ",\"docs\":\x7b".toList → (scanFrom ⟨1, false, false⟩ q).Open :=
      ⟨by decide, segChain_segOpen (Or.inl hd1) (by decide)⟩
    have hC := @entriesL_scan 2 (by decide) m.docs
    have hD : scanFrom ⟨2, false, false⟩ ['}'] = ⟨1, false, false⟩
        ∧ ∀ q, q <+: ['}'] → (scanFrom ⟨2, false, false⟩ q).Open :=
      ⟨by decide, segChain_segOpen (Or.inl (by decide)) (by decide)⟩
    have hR := segOpen_append hA (segOpen_append hB (segOpen_append hC hD))
    have hF : ∀ q, q <+: "\x7b\"version\":".toList
          ++ (natDigits m.version ++ (",\"docs\":\x7b".toList ++ (entriesL m.docs ++ ['}'])))
        → q ≠ [] → (scanFrom ⟨0, false, false⟩ q).Open := by
      intro q hq hqne
      rcases prefix_append_cases hq with h1 | ⟨r, hr1, hr2⟩
      · exact segChain_sound _ _ h0chain q h1 hqne
      · subst hr1
        rw [scanFrom_append, h0val]
        exact hR.2 r hr2
    have hFval : scanFrom ⟨0, false, false⟩ ("\x7b\"version\":".toList
          ++ (natDigits m.version ++ (",\"docs\":\x7b".toList ++ (entriesL m.docs ++ ['}']))))
        = ⟨1, false, false⟩ := by
      rw [scanFrom_append, h0val, hR.1]
    rw [serializeManifest_decomp] at hp hne
    have hjc : jsonComplete p = false := by
      cases p with
      | nil => rfl
      | cons c cs =>
        have hopen : (scanFrom ⟨0, false, false⟩ (c :: cs)).Open := by
          rcases prefix_append_cases hp with h1 | ⟨r, hr1, hr2⟩
          · exact hF _ h1 (by simp)
          · rcases List.prefix_cons_iff.mp hr2 with h2 | ⟨t, ht1, ht2⟩
            · rw [h2, List.append_nil] at hr1
              rw [hr1, hFval]
              exact Or.inl (le_refl 1)
            · exfalso
              have ht : t = [] := by simpa using ht2
              subst ht
              subst ht1
              exact hne hr1
        show (scanFrom ⟨0, false, false⟩ (c :: cs) == (⟨0, false, false⟩ : ScanSt))
            = false
        refine beq_eq_false_iff_ne.mpr ?_
        intro heq
        rw [heq] at hopen
        unfold ScanSt.Open at hopen
        rcases hopen with h | h
        · exact absurd h (by decide)
        · exact absurd h (by decide)
    show parseManifest p = Except.error ()
    unfold parseManifest
    rw [hjc]
    rfl

theorem manifest_load_safety_witness :
    (['{'] <+: serializeManifest ⟨0, []⟩)
    ∧ ['{'] ≠ serializeManifest ⟨0, []⟩
    ∧ (load_manifest none = Except.ok ⟨0, []⟩
      ∧ load_manifest (some ['{']) = Except.error ()) :=
  ⟨⟨"\"version\":0,\"docs\":\x7b\x7d\x7d".toList, by decide⟩, by decide,
    manifest_load_safety ⟨0, []⟩ ['{']
      ⟨"\"version\":0,\"docs\":\x7b\x7d\x7d".toList, by decide⟩ (by decide)⟩

end BunkerSearch
